import Mathlib

/-!
# HypeHedge P2P prediction-market exchange — formal model

A shallow embedding, in Lean 4, of the matching engine and settlement layer of
the HypeHedge exchange (`src/exchange.ts` and the market/order/resolution
functions of the database layer).  JavaScript numbers are modelled as exact
rationals (`ℚ`): every quantity the engine manipulates (prices, quantities,
escrow, balances) is a JS `number`, and the algebraic claims under study
concern the arithmetic of the algorithm, not binary floating-point rounding.
Opaque string ids (snowflakes) are modelled as `Nat`.

Conventions used throughout:

* `Array.prototype.sort` with comparator `(a, b) => b.price - a.price` is a
  stable descending sort; it is modelled by `List.insertionSort` with the
  corresponding total relation, which is also stable, and a stable sort by a
  total preorder has a unique result.
* JavaScript `Map` (insertion-ordered, key-unique) is modelled by an
  association list updated in place (`updateUserBalance`), or by a pointwise
  updated function when only lookup order matters.
* The matching engine mutates shared `OrderForMatching` objects.  Object
  identity is modelled by tagging every input order with its index in the
  input list (`OrderM.idx`); the mutable `remainingQuantity` field is a
  function `Nat → ℚ` from indices, shared by all views of the order book.
* The engine's `while` loop is modelled with explicit fuel
  (`orders.length + 1`).  Every iteration that fires a match zeroes, and
  permanently removes, the remaining quantity of at least one order, so for
  well-formed inputs this fuel reaches the same fixed point as the source.
* `generateId()` and `Date.now()` are impure; execution records are modelled
  without the `id`/`timestamp` fields (no claim concerns them), and fresh ids
  needed by `createOrder` are passed as an explicit parameter.
-/

namespace HypeHedge

/-- `type Direction = "buy" | "sell"` from `exchange.ts`. -/
inductive Direction where
  | buy
  | sell
deriving DecidableEq, Repr

/-- `interface Order` from `exchange.ts` (the fields the engine reads). -/
structure Order where
  id : Nat
  userId : Nat
  marketId : Nat
  outcomeId : Nat
  direction : Direction
  quantity : ℚ
  price : ℚ
  escrowAmount : ℚ
deriving DecidableEq, Repr

/-- `interface Position` from `exchange.ts`: holdings as an association list
`outcomeId ↦ quantity` (a JS object with insertion-ordered keys). -/
structure Position where
  userId : Nat
  marketId : Nat
  holdings : List (Nat × ℚ)
deriving DecidableEq, Repr

/-- `interface Party` from `exchange.ts`. -/
structure Party where
  userId : Nat
  outcomeId : Nat
  quantity : ℚ
  effectivePrice : ℚ
deriving DecidableEq, Repr

/-- `interface Execution` from `exchange.ts`, without the impure `id` and
`timestamp` fields. -/
structure ExecutionRec where
  marketId : Nat
  participants : List Party
deriving DecidableEq, Repr

/-- One entry of `MatchResult.orderUpdates`. -/
structure OrderUpdate where
  orderId : Nat
  newQuantity : ℚ
deriving DecidableEq, Repr

/-- One entry of `MatchResult.positionUpdates`. -/
structure PositionUpdate where
  userId : Nat
  outcomeId : Nat
  quantityDelta : ℚ
deriving DecidableEq, Repr

/-- One entry of `MatchResult.balanceUpdates`. -/
structure BalanceUpdate where
  userId : Nat
  balanceDelta : ℚ
  lockedDelta : ℚ
deriving DecidableEq, Repr

/-- `interface MatchResult` from `exchange.ts`. -/
structure MatchResult where
  executions : List ExecutionRec
  orderUpdates : List OrderUpdate
  positionUpdates : List PositionUpdate
  balanceUpdates : List BalanceUpdate
deriving DecidableEq, Repr

/-- `calculateEscrow` from `exchange.ts`:
buy: `quantity * price`; sell: `max(0, quantity - currentlyOwned) * (1 - price)`. -/
def calculateEscrow (direction : Direction) (quantity price currentlyOwned : ℚ) : ℚ :=
  match direction with
  | .buy => quantity * price
  | .sell => max 0 (quantity - currentlyOwned) * (1 - price)

/-- `validateOrder` from `exchange.ts`; `true` means `{ valid: true }`.
`Number.isInteger(quantity)` on an exact rational is `quantity.den = 1`. -/
def validateOrder (_direction : Direction) (quantity price : ℚ) : Bool :=
  if quantity ≤ 0 ∨ quantity.den ≠ 1 then false
  else if price ≤ 0 ∨ 1 ≤ price then false
  else true

/-- `calculatePayout` from `exchange.ts`: `holdings[winningOutcomeId] || 0`. -/
def calculatePayout (holdings : List (Nat × ℚ)) (winningOutcomeId : Nat) : ℚ :=
  match holdings.find? (fun p => p.1 = winningOutcomeId) with
  | some p => p.2
  | none => 0

/-! ## The matching engine (`executeMatching` and its helpers) -/

/-- `OrderForMatching` object identity: the order together with its index in
the engine's input list.  The mutable `remainingQuantity` lives in a shared
function `Nat → ℚ` from these indices. -/
structure OrderM where
  idx : Nat
  ord : Order
deriving DecidableEq, Repr

/-- Tag each order of a list with its position, starting at `k`. -/
def tagIdx : Nat → List Order → List OrderM
  | _, [] => []
  | k, o :: rest => ⟨k, o⟩ :: tagIdx (k + 1) rest

/-- `orders.sort((a, b) => b.price - a.price)`: stable descending sort. -/
def sortBuysDesc (l : List OrderM) : List OrderM :=
  l.insertionSort (fun a b => b.ord.price ≤ a.ord.price)

/-- `orders.sort((a, b) => a.price - b.price)`: stable ascending sort. -/
def sortSellsAsc (l : List OrderM) : List OrderM :=
  l.insertionSort (fun a b => a.ord.price ≤ b.ord.price)

/-- `outcomesWithBids.sort((a, b) => b.price - a.price)` on
`(outcomeId, bestOrder)` pairs. -/
def sortPairsDesc (l : List (Nat × OrderM)) : List (Nat × OrderM) :=
  l.insertionSort (fun a b => b.2.ord.price ≤ a.2.ord.price)

/-- Mutable state of one `executeMatching` call: the two order books, the
shared `remainingQuantity` view, the `userBalanceChanges` map (association
list in insertion order: `userId ↦ (balanceDelta, lockedDelta)`), and the
accumulated pieces of the `MatchResult`. -/
structure EngSt where
  buyBook : Nat → List OrderM
  sellBook : Nat → List OrderM
  rem : Nat → ℚ
  balChanges : List (Nat × ℚ × ℚ)
  execs : List ExecutionRec
  posUpds : List PositionUpdate

/-- `updateUserBalance` from `exchange.ts`: add deltas to the user's entry of
the insertion-ordered map, creating it at the end if absent. -/
def updateUserBalance (l : List (Nat × ℚ × ℚ)) (userId : Nat)
    (balanceDelta lockedDelta : ℚ) : List (Nat × ℚ × ℚ) :=
  match l with
  | [] => [(userId, balanceDelta, lockedDelta)]
  | (v, b, k) :: t =>
      if v = userId then (v, b + balanceDelta, k + lockedDelta) :: t
      else (v, b, k) :: updateUserBalance t userId balanceDelta lockedDelta

/-- The best (head) bid of each outcome that has buy orders, in `outcomeIds`
order; the per-outcome lists are expected to be sorted already. -/
def bestBids (book : Nat → List OrderM) (outcomeIds : List Nat) :
    List (Nat × OrderM) :=
  outcomeIds.filterMap fun oid =>
    match book oid with
    | [] => none
    | o :: _ => some (oid, o)

/-- The greedy selection loop of `findSyntheticMatch`: add outcomes in list
order, stopping at the first running total `≥ 1.0`; returns the selected
outcomes and the final total. -/
def greedySelect : List (Nat × OrderM) → ℚ → List (Nat × OrderM) × ℚ
  | [], acc => ([], acc)
  | x :: xs, acc =>
      let t := acc + x.2.ord.price
      if 1 ≤ t then ([x], t)
      else
        let r := greedySelect xs t
        (x :: r.1, r.2)

/-- `maxQuantity = Math.min(maxQuantity, remainingQuantity)` starting from
`+Infinity`; `none` models the infinity start. -/
def minRemOpt (rem : Nat → ℚ) : List (Nat × OrderM) → Option ℚ → Option ℚ
  | [], acc => acc
  | x :: xs, acc =>
      let r := rem x.2.idx
      minRemOpt rem xs (some (match acc with | none => r | some m => min m r))

/-- Return value of `findSyntheticMatch` (the `participatingOutcomeIds` field
is `participants.map (·.1)`). -/
structure SynMatch where
  matchQuantity : ℚ
  participants : List (Nat × OrderM)
  totalPrice : ℚ

/-- The buy book after `findSyntheticMatch` sorts every buy list in place. -/
def sortedBook (book : Nat → List OrderM) : Nat → List OrderM :=
  fun oid => sortBuysDesc (book oid)

/-- The greedy selection of `findSyntheticMatch`: best bids of the sorted
book, sorted descending, greedily accumulated from 0. -/
def synSelect (book : Nat → List OrderM) (outcomeIds : List Nat) :
    List (Nat × OrderM) × ℚ :=
  greedySelect (sortPairsDesc (bestBids (sortedBook book) outcomeIds)) 0

/-- `findSyntheticMatch` from `exchange.ts`.  It first sorts every buy list
in place (the returned book), then takes the best bid of each outcome,
sorts those descending, greedily selects a prefix reaching total `≥ 1.0`,
and bounds the quantity by the smallest remaining quantity; a zero (or
infinite) quantity yields no match. -/
def findSyntheticMatch (book : Nat → List OrderM) (rem : Nat → ℚ)
    (outcomeIds : List Nat) : (Nat → List OrderM) × Option SynMatch :=
  if (bestBids (sortedBook book) outcomeIds).isEmpty then (sortedBook book, none)
  else if (synSelect book outcomeIds).2 < 1 then (sortedBook book, none)
  else
    match minRemOpt rem (synSelect book outcomeIds).1 none with
    | none => (sortedBook book, none)
    | some q =>
        if q = 0 then (sortedBook book, none)
        else (sortedBook book, some ⟨q, (synSelect book outcomeIds).1, (synSelect book outcomeIds).2⟩)

/-- `totalContribution`: the sum of the participating orders' prices. -/
def totalContributionOf (sel : List (Nat × OrderM)) : ℚ :=
  sel.foldl (fun acc x => acc + x.2.ord.price) 0

/-- The surplus-distribution inner loop of the synthetic branch: one
position update of `matchQuantity * contributionShare` contracts per
non-participating outcome, skipped when not positive. -/
def synSurplus (userId : Nat) (matchQuantity contributionShare : ℚ)
    (nonPart : List Nat) : List PositionUpdate :=
  nonPart.filterMap fun so =>
    let surplusQuantity := matchQuantity * contributionShare
    if 0 < surplusQuantity then some ⟨userId, so, surplusQuantity⟩ else none

/-- The `for (const [outcomeId, matchedOrders] of participants)` loop of the
synthetic branch: per participant, aggregate the balance deltas
`(-fillCost, -escrowUsed)`, decrement the shared remaining quantity, push
the headline position update followed by the pro-rata surplus updates, and
record the execution participant at effective price `order.price`. -/
def processParticipants (matchQuantity totalContribution : ℚ)
    (nonPart : List Nat) :
    List (Nat × OrderM) → EngSt → List Party → EngSt × List Party
  | [], s, parts => (s, parts)
  | (oid, om) :: rest, s, parts =>
      let fillCost := matchQuantity * om.ord.price
      let escrowUsed := matchQuantity * om.ord.price
      let contributionShare := om.ord.price / totalContribution
      let s1 : EngSt :=
        { s with
          balChanges := updateUserBalance s.balChanges om.ord.userId (-fillCost) (-escrowUsed)
          rem := fun i => if i = om.idx then s.rem i - matchQuantity else s.rem i
          posUpds := s.posUpds ++ ⟨om.ord.userId, oid, matchQuantity⟩ ::
            synSurplus om.ord.userId matchQuantity contributionShare nonPart }
      processParticipants matchQuantity totalContribution nonPart rest s1
        (parts ++ [⟨om.ord.userId, oid, matchQuantity, om.ord.price⟩])

/-- The flat list of position updates pushed by `processParticipants`: per
participant, the headline update for their own outcome followed by one
surplus update per non-participating outcome. -/
def synPosList (matchQuantity totalContribution : ℚ) (nonPart : List Nat) :
    List (Nat × OrderM) → List PositionUpdate
  | [] => []
  | (oid, om) :: rest =>
      (⟨om.ord.userId, oid, matchQuantity⟩ ::
        synSurplus om.ord.userId matchQuantity (om.ord.price / totalContribution) nonPart) ++
      synPosList matchQuantity totalContribution nonPart rest

/-- The remaining-quantity function after subtracting `q` at each index of a
list, in order. -/
def remAfter (q : ℚ) (idxs : List Nat) (rem : Nat → ℚ) : Nat → ℚ :=
  idxs.foldl (fun r j => fun i => if i = j then r i - q else r i) rem

/-- The balance-change map after the per-participant `updateUserBalance`
calls of the synthetic branch. -/
def balFold (q : ℚ) (P : List (Nat × OrderM)) (bc : List (Nat × ℚ × ℚ)) :
    List (Nat × ℚ × ℚ) :=
  P.foldl (fun acc x =>
    updateUserBalance acc x.2.ord.userId (-(q * x.2.ord.price)) (-(q * x.2.ord.price))) bc

/-- The post-match cleanup of the synthetic branch: for each participating
outcome, keep only buy orders with positive remaining quantity. -/
def cleanupBuys (book : Nat → List OrderM) (rem : Nat → ℚ) :
    List Nat → Nat → List OrderM
  | [], x => book x
  | oid :: rest, x =>
      cleanupBuys
        (fun y => if y = oid then (book oid).filter (fun o => decide (0 < rem o.idx)) else book y)
        rem rest x

/-- The `if (syntheticMatch) { ... }` block of the engine's outer loop;
returns the updated state and whether a synthetic match fired. -/
def syntheticPhase (marketId : Nat) (outcomeIds : List Nat) (s : EngSt) :
    EngSt × Bool :=
  let fs := findSyntheticMatch s.buyBook s.rem outcomeIds
  let s0 : EngSt := { s with buyBook := fs.1 }
  match fs.2 with
  | none => (s0, false)
  | some m =>
      let totalContribution := totalContributionOf m.participants
      let participatingOutcomeIds : List Nat := m.participants.map (·.1)
      let nonPart := outcomeIds.filter (fun x => decide (x ∉ participatingOutcomeIds))
      let pr := processParticipants m.matchQuantity totalContribution nonPart
        m.participants s0 []
      let s1 := pr.1
      let s2 : EngSt := { s1 with
        execs := s1.execs ++ [⟨marketId, pr.2⟩]
        buyBook := cleanupBuys s1.buyBook s1.rem participatingOutcomeIds }
      (s2, true)

/-- Return value of `findDirectMatch`. -/
structure DirectMatch where
  buyOrder : OrderM
  sellOrder : OrderM
  matchQuantity : ℚ
  matchPrice : ℚ

/-- `findDirectMatch` from `exchange.ts`: sorts the two sides in place
(returned lists), matches the best buy against the best sell when prices
cross, at the midpoint price, for the minimum remaining quantity. -/
def findDirectMatch (buyOrders sellOrders : List OrderM) (rem : Nat → ℚ) :
    List OrderM × List OrderM × Option DirectMatch :=
  if buyOrders.isEmpty ∨ sellOrders.isEmpty then (buyOrders, sellOrders, none)
  else
    match sortBuysDesc buyOrders, sortSellsAsc sellOrders with
    | bestBuy :: _, bestSell :: _ =>
        if bestBuy.ord.price < bestSell.ord.price then
          (sortBuysDesc buyOrders, sortSellsAsc sellOrders, none)
        else if min (rem bestBuy.idx) (rem bestSell.idx) = 0 then
          (sortBuysDesc buyOrders, sortSellsAsc sellOrders, none)
        else
          (sortBuysDesc buyOrders, sortSellsAsc sellOrders,
           some ⟨bestBuy, bestSell, min (rem bestBuy.idx) (rem bestSell.idx),
                 (bestBuy.ord.price + bestSell.ord.price) / 2⟩)
    | _, _ => (sortBuysDesc buyOrders, sortSellsAsc sellOrders, none)

/-- The settlement performed when a direct match fires on outcome `oid`
(`sb`, `ss` are the sorted book sides returned by `findDirectMatch`). -/
def directSettle (marketId oid : Nat) (s : EngSt) (sb ss : List OrderM)
    (dm : DirectMatch) : EngSt :=
  let buyerCost := dm.matchQuantity * dm.matchPrice
  let buyerEscrowUsed :=
    dm.matchQuantity / dm.buyOrder.ord.quantity * dm.buyOrder.ord.escrowAmount
  let buyerRefund := buyerEscrowUsed - buyerCost
  let bal1 := updateUserBalance s.balChanges dm.buyOrder.ord.userId
    (-buyerCost + buyerRefund) (-buyerEscrowUsed)
  let sellerProceeds := dm.matchQuantity * dm.matchPrice
  let sellerEscrowUsed :=
    dm.matchQuantity / dm.sellOrder.ord.quantity * dm.sellOrder.ord.escrowAmount
  let bal2 := updateUserBalance bal1 dm.sellOrder.ord.userId
    (sellerProceeds + sellerEscrowUsed) (-sellerEscrowUsed)
  let rem1 := fun i =>
    if i = dm.buyOrder.idx then s.rem i - dm.matchQuantity else s.rem i
  let rem2 := fun i =>
    if i = dm.sellOrder.idx then rem1 i - dm.matchQuantity else rem1 i
  let newBuys :=
    if rem2 dm.buyOrder.idx = 0 then
      sb.filter (fun o => decide (o.ord.id ≠ dm.buyOrder.ord.id))
    else sb
  let newSells :=
    if rem2 dm.sellOrder.idx = 0 then
      ss.filter (fun o => decide (o.ord.id ≠ dm.sellOrder.ord.id))
    else ss
  { s with
    balChanges := bal2
    rem := rem2
    posUpds := s.posUpds ++
      [⟨dm.buyOrder.ord.userId, oid, dm.matchQuantity⟩,
       ⟨dm.sellOrder.ord.userId, oid, -dm.matchQuantity⟩]
    execs := s.execs ++
      [⟨marketId,
        [⟨dm.buyOrder.ord.userId, oid, dm.matchQuantity, dm.matchPrice⟩,
         ⟨dm.sellOrder.ord.userId, oid, -dm.matchQuantity, dm.matchPrice⟩]⟩]
    buyBook := fun x => if x = oid then newBuys else s.buyBook x
    sellBook := fun x => if x = oid then newSells else s.sellBook x }

/-- The `for (const outcomeId of outcomeIds)` direct-match loop of the
engine's outer iteration: try each outcome in order, settle the first direct
match found and break; returns whether a direct match fired. -/
def directPhase (marketId : Nat) (s : EngSt) : List Nat → EngSt × Bool
  | [] => (s, false)
  | oid :: rest =>
      match findDirectMatch (s.buyBook oid) (s.sellBook oid) s.rem with
      | (sb, ss, none) =>
          directPhase marketId
            { s with
              buyBook := fun x => if x = oid then sb else s.buyBook x
              sellBook := fun x => if x = oid then ss else s.sellBook x } rest
      | (sb, ss, some dm) =>
          (directSettle marketId oid
            { s with
              buyBook := fun x => if x = oid then sb else s.buyBook x
              sellBook := fun x => if x = oid then ss else s.sellBook x }
            sb ss dm, true)

/-- One iteration of the engine's `while (matchFound)` loop: the synthetic
phase runs first, then the direct-match loop over outcomes. -/
def engineIter (marketId : Nat) (outcomeIds : List Nat) (s : EngSt) :
    EngSt × Bool :=
  let p1 := syntheticPhase marketId outcomeIds s
  let p2 := directPhase marketId p1.1 outcomeIds
  (p2.1, p1.2 || p2.2)

/-- The engine's outer loop, with explicit fuel: iterate while a match fired. -/
def engineLoop (marketId : Nat) (outcomeIds : List Nat) :
    Nat → EngSt → EngSt
  | 0, s => s
  | fuel + 1, s =>
      let p := engineIter marketId outcomeIds s
      if p.2 then engineLoop marketId outcomeIds fuel p.1 else p.1

/-- The initial remaining quantity of the order at index `i` (0 past the end). -/
def rem0 (orders : List Order) (i : Nat) : ℚ :=
  match orders[i]? with | some o => o.quantity | none => 0

/-- Initial engine state: orders tagged with their input position and split
into buy/sell books per outcome; remaining quantity starts at `quantity`. -/
def initSt (orders : List Order) : EngSt :=
  let oms := tagIdx 0 orders
  { buyBook := fun oid =>
      oms.filter (fun om => decide (om.ord.direction = .buy) && decide (om.ord.outcomeId = oid))
    sellBook := fun oid =>
      oms.filter (fun om => decide (om.ord.direction = .sell) && decide (om.ord.outcomeId = oid))
    rem := rem0 orders
    balChanges := []
    execs := []
    posUpds := [] }

/-- `executeMatching` from `exchange.ts`.  The `positions` argument is
accepted and ignored, exactly as in the source (which builds a `positionMap`
it never reads).  Fuel `orders.length + 1` reaches the loop's fixed point
for well-formed inputs, since every continuing iteration permanently removes
at least one order from the books. -/
def executeMatching (orders : List Order) (positions : List Position)
    (outcomeIds : List Nat) (marketId : Nat) : MatchResult :=
  let _ := positions
  let s := engineLoop marketId outcomeIds (orders.length + 1) (initSt orders)
  { executions := s.execs
    orderUpdates := (tagIdx 0 orders).filterMap fun om =>
      if s.rem om.idx ≠ om.ord.quantity then some ⟨om.ord.id, s.rem om.idx⟩ else none
    positionUpdates := s.posUpds
    balanceUpdates := s.balChanges.map fun x => ⟨x.1, x.2.1, x.2.2⟩ }

/-! ## The persistence layer (`database.ts` market/order/resolution functions)

The relevant tables are modelled as an in-memory state; every function below
is the body of one database transaction of the source, as a pure state
transformer.  SQL `UPDATE ... WHERE` is modelled as a map over matching rows
(a no-op when no row matches), and `INSERT ... ON CONFLICT DO UPDATE` as an
upsert on the association list. -/

/-- A `users` row: `balance` and `locked` (both JS numbers). -/
structure UserRec where
  balance : ℚ
  locked : ℚ
deriving DecidableEq, Repr

/-- Market status. -/
inductive MStatus where
  | mopen
  | resolved
deriving DecidableEq, Repr

/-- A `markets` row (the fields the modelled functions read). -/
structure MarketRec where
  id : Nat
  status : MStatus
  winningOutcomeId : Option Nat
deriving DecidableEq, Repr

/-- An `outcomes` row. -/
structure OutcomeRec where
  id : Nat
  marketId : Nat
deriving DecidableEq, Repr

/-- The persisted state: `users`, `markets`, `outcomes`, `orders`,
`positions` (logically keyed by `(userId, marketId)`; the row id is not
modelled as nothing reads it), and the append-only `executions`. -/
structure DbState where
  users : List (Nat × UserRec)
  markets : List MarketRec
  outcomes : List OutcomeRec
  orders : List Order
  positions : List Position
  executions : List ExecutionRec
deriving Repr

/-- `UPDATE users SET ... WHERE discordId = u`: map the function over the
matching rows (no-op when the user row does not exist). -/
def updateUser (users : List (Nat × UserRec)) (u : Nat) (f : UserRec → UserRec) :
    List (Nat × UserRec) :=
  users.map fun p => if p.1 = u then (p.1, f p.2) else p

/-- `INSERT ... ON CONFLICT DO UPDATE` on the users table. -/
def upsertUser (users : List (Nat × UserRec)) (u : Nat) (ins : UserRec)
    (f : UserRec → UserRec) : List (Nat × UserRec) :=
  if users.any (fun p => decide (p.1 = u)) then updateUser users u f
  else users ++ [(u, ins)]

/-- Result of `createOrder` (`CreateOrderResult` in `database.ts`). -/
structure CreateOrderResult where
  success : Bool
  order : Option Order
  error : Option String
deriving Repr

/-- `createOrder` from `database.ts`.  Checks, in source order: market exists
and is open; outcome belongs to the market; no existing order for
`(userId, marketId)`; then computes the escrow from current holdings, checks
`balance - locked ≥ escrow`, locks the escrow and inserts the order.  The
source performs no parameter validation (`validateOrder` is never called).
`freshId` stands for the impure `generateId()`. -/
def createOrder (st : DbState) (userId marketId outcomeId : Nat)
    (direction : Direction) (quantity price : ℚ) (freshId : Nat) :
    CreateOrderResult × DbState :=
  match st.markets.find? (fun m => decide (m.id = marketId)) with
  | none => (⟨false, none, some "Market not open"⟩, st)
  | some market =>
    if market.status ≠ .mopen then (⟨false, none, some "Market not open"⟩, st)
    else
      match st.outcomes.find? (fun o => decide (o.id = outcomeId) && decide (o.marketId = marketId)) with
      | none => (⟨false, none, some "Invalid outcome"⟩, st)
      | some _ =>
        match st.orders.find? (fun o => decide (o.userId = userId) && decide (o.marketId = marketId)) with
        | some _ => (⟨false, none, some "You already have an order in this market. Cancel it first."⟩, st)
        | none =>
          let holdings :=
            match st.positions.find? (fun p => decide (p.userId = userId) && decide (p.marketId = marketId)) with
            | some p => p.holdings
            | none => []
          let currentlyOwned :=
            match holdings.find? (fun h => decide (h.1 = outcomeId)) with
            | some h => h.2
            | none => 0
          let escrowAmount := calculateEscrow direction quantity price currentlyOwned
          let balance :=
            match st.users.find? (fun p => decide (p.1 = userId)) with
            | some p => p.2.balance
            | none => 0
          let locked :=
            match st.users.find? (fun p => decide (p.1 = userId)) with
            | some p => p.2.locked
            | none => 0
          let available := balance - locked
          if available < escrowAmount then (⟨false, none, some "Insufficient balance"⟩, st)
          else
            let order : Order :=
              ⟨freshId, userId, marketId, outcomeId, direction, quantity, price, escrowAmount⟩
            let st1 : DbState := { st with
              users := updateUser st.users userId
                (fun u => { u with locked := u.locked + escrowAmount })
              orders := st.orders ++ [order] }
            (⟨true, some order, none⟩, st1)

/-- Apply one delta to an insertion-ordered holdings object:
`holdings[outcomeId] = (holdings[outcomeId] ?? 0) + delta`, deleting the key
when the result is zero. -/
def applyHoldingDelta (h : List (Nat × ℚ)) (outcomeId : Nat) (delta : ℚ) :
    List (Nat × ℚ) :=
  let v :=
    match h.find? (fun p => decide (p.1 = outcomeId)) with
    | some p => p.2
    | none => 0
  let v1 := v + delta
  if v1 = 0 then h.filter (fun p => decide (p.1 ≠ outcomeId))
  else if h.any (fun p => decide (p.1 = outcomeId)) then
    h.map (fun p => if p.1 = outcomeId then (p.1, v1) else p)
  else h ++ [(outcomeId, v1)]

/-- The per-user aggregation map of position updates built by `executeMarket`
(a JS `Map` of `Map`s, both insertion-ordered). -/
def addPosDelta (m : List (Nat × List (Nat × ℚ))) (u oid : Nat) (d : ℚ) :
    List (Nat × List (Nat × ℚ)) :=
  match m with
  | [] => [(u, [(oid, d)])]
  | (v, inner) :: t =>
      if v = u then
        let inner1 :=
          if inner.any (fun p => decide (p.1 = oid)) then
            inner.map (fun p => if p.1 = oid then (p.1, p.2 + d) else p)
          else inner ++ [(oid, d)]
        (v, inner1) :: t
      else (v, inner) :: addPosDelta t u oid d

/-- Apply one user's aggregated outcome deltas to the positions table:
read-or-create the `(userId, marketId)` row, fold the deltas into its
holdings. -/
def applyUserPosUpdates (positions : List Position) (userId marketId : Nat)
    (deltas : List (Nat × ℚ)) : List Position :=
  let holdings :=
    match positions.find? (fun p => decide (p.userId = userId) && decide (p.marketId = marketId)) with
    | some p => p.holdings
    | none => []
  let holdings1 := deltas.foldl (fun h d => applyHoldingDelta h d.1 d.2) holdings
  if positions.any (fun p => decide (p.userId = userId) && decide (p.marketId = marketId)) then
    positions.map fun p =>
      if p.userId = userId ∧ p.marketId = marketId then { p with holdings := holdings1 } else p
  else positions ++ [⟨userId, marketId, holdings1⟩]

/-- Steps 6–9 of `executeMarket`: apply a `MatchResult` to the state.
Balance updates add both deltas to the user row; position updates are
aggregated per user and folded into holdings; order updates delete the order
at `newQuantity = 0` and otherwise rewrite `quantity` only — the stored
`escrowAmount` is left untouched; executions are appended. -/
def applyMatchResult (st : DbState) (marketId : Nat) (r : MatchResult) : DbState :=
  let users1 := r.balanceUpdates.foldl
    (fun us u => updateUser us u.userId
      (fun rec => { rec with balance := rec.balance + u.balanceDelta,
                             locked := rec.locked + u.lockedDelta }))
    st.users
  let posMap := r.positionUpdates.foldl
    (fun m u => addPosDelta m u.userId u.outcomeId u.quantityDelta) []
  let positions1 := posMap.foldl
    (fun ps e => applyUserPosUpdates ps e.1 marketId e.2) st.positions
  let orders1 := r.orderUpdates.foldl
    (fun os u =>
      if u.newQuantity = 0 then os.filter (fun o => decide (o.id ≠ u.orderId))
      else os.map (fun o => if o.id = u.orderId then { o with quantity := u.newQuantity } else o))
    st.orders
  { st with
    users := users1
    positions := positions1
    orders := orders1
    executions := st.executions ++ r.executions }

/-- `executeMarket` from `database.ts`: verify the market is open, gather its
outcomes, orders and positions, run `executeMatching`, and apply the result. -/
def executeMarket (st : DbState) (marketId : Nat) :
    List ExecutionRec × DbState :=
  match st.markets.find? (fun m => decide (m.id = marketId)) with
  | none => ([], st)
  | some market =>
    if market.status ≠ .mopen then ([], st)
    else
      let outcomeIds := (st.outcomes.filter (fun o => decide (o.marketId = marketId))).map (·.id)
      let marketOrders := st.orders.filter (fun o => decide (o.marketId = marketId))
      if marketOrders.isEmpty then ([], st)
      else
        let positionData := st.positions.filter (fun p => decide (p.marketId = marketId))
        let matchResult := executeMatching marketOrders positionData outcomeIds marketId
        (matchResult.executions, applyMatchResult st marketId matchResult)

/-- One entry of the resolution payout summary. -/
structure PayoutInfo where
  userId : Nat
  payout : ℚ
deriving DecidableEq, Repr

/-- `resolveMarket`'s return value. -/
structure ResolveSummary where
  payouts : List PayoutInfo
  totalPayout : ℚ
  winnerCount : Nat
deriving DecidableEq, Repr

/-- `resolveMarket` from `database.ts`: check the winning outcome belongs to
the market; transition the market open→resolved (failing if not open);
refund the escrow of every outstanding order of the market and delete those
orders; then, for every position of the market, compute
`payout = calculatePayout(holdings, winningOutcomeId)` and credit it to the
user's balance **only when `payout > 0`** (the source guard); finally delete
all positions of the market. -/
def resolveMarket (st : DbState) (marketId winningOutcomeId : Nat) :
    Option ResolveSummary × DbState :=
  match st.outcomes.find? (fun o => decide (o.id = winningOutcomeId) && decide (o.marketId = marketId)) with
  | none => (none, st)
  | some _ =>
    match st.markets.find? (fun m => decide (m.id = marketId) && decide (m.status = .mopen)) with
    | none => (none, st)
    | some _ =>
      let markets1 := st.markets.map fun m =>
        if m.id = marketId ∧ m.status = .mopen then
          { m with status := .resolved, winningOutcomeId := some winningOutcomeId }
        else m
      let marketOrders := st.orders.filter (fun o => decide (o.marketId = marketId))
      let users1 := marketOrders.foldl
        (fun us o => updateUser us o.userId
          (fun rec => { rec with locked := rec.locked - o.escrowAmount }))
        st.users
      let orders1 := st.orders.filter (fun o => decide (o.marketId ≠ marketId))
      let marketPositions := st.positions.filter (fun p => decide (p.marketId = marketId))
      let step := marketPositions.foldl
        (fun (acc : List PayoutInfo × ℚ × List (Nat × UserRec)) p =>
          let payout := calculatePayout p.holdings winningOutcomeId
          if 0 < payout then
            (acc.1 ++ [⟨p.userId, payout⟩], acc.2.1 + payout,
             upsertUser acc.2.2 p.userId ⟨payout, 0⟩
               (fun rec => { rec with balance := rec.balance + payout }))
          else acc)
        ([], 0, users1)
      let positions1 := st.positions.filter (fun p => decide (p.marketId ≠ marketId))
      (some ⟨step.1, step.2.1, step.1.length⟩,
       { st with
         markets := markets1
         users := step.2.2
         orders := orders1
         positions := positions1 })

/-! ## Derived quantities used in claim statements -/

/-- Total escrow of the orders that remain outstanding after applying a
`MatchResult`'s order updates (an update with `newQuantity = 0` deletes the
order; any other update rewrites `quantity` but leaves `escrowAmount`). -/
def escrowTotalAfter (orders : List Order) (upds : List OrderUpdate) : ℚ :=
  (orders.map fun o =>
    if upds.any (fun u => decide (u.orderId = o.id) && decide (u.newQuantity = 0)) then 0
    else o.escrowAmount).sum

/-- The currency-conservation quantity of the spec: total emitted balance
deltas plus the change in total outstanding escrow. -/
def conservationDelta (orders : List Order) (r : MatchResult) : ℚ :=
  (r.balanceUpdates.map (·.balanceDelta)).sum +
    (escrowTotalAfter orders r.orderUpdates - (orders.map (·.escrowAmount)).sum)

/-- A user's `locked` column (0 when the row is absent). -/
def lockedOf (st : DbState) (u : Nat) : ℚ :=
  match st.users.find? (fun p => decide (p.1 = u)) with
  | some p => p.2.locked
  | none => 0

/-- The sum of `escrowAmount` over a user's resting orders. -/
def escrowSumOf (st : DbState) (u : Nat) : ℚ :=
  ((st.orders.filter (fun o => decide (o.userId = u))).map (·.escrowAmount)).sum

/-- Sum of the position deltas a `MatchResult` assigns to one outcome. -/
def posSum (l : List PositionUpdate) (oid : Nat) : ℚ :=
  ((l.filter (fun u => decide (u.outcomeId = oid))).map (·.quantityDelta)).sum

/-! ## Concrete scenarios -/

/-- Spec scenario 1: Alice (user 1) `buy Yes 10 @ 0.70` (escrow 7), Bob
(user 2) `sell Yes 10 @ 0.30` (no holdings, escrow `10·(1−0.3) = 7`);
market 100 with outcomes Yes = 10, No = 11. -/
def scen1Orders : List Order :=
  [⟨1, 1, 100, 10, .buy, 10, 7/10, 7⟩,
   ⟨2, 2, 100, 10, .sell, 10, 3/10, 7⟩]

/-- Scenario for the match-priority claim: the crossing pair of scenario 1
plus Carol (user 3) `buy No 10 @ 0.40`. -/
def scen7Orders : List Order :=
  [⟨1, 1, 100, 10, .buy, 10, 7/10, 7⟩,
   ⟨2, 2, 100, 10, .sell, 10, 3/10, 7⟩,
   ⟨3, 3, 100, 11, .buy, 10, 2/5, 4⟩]

/-- Partial-fill scenario: Alice `buy Yes 10 @ 0.50` (escrow 5, locked 5),
Bob `sell Yes 4 @ 0.50` (escrow 2, locked 2); the escrow-lock invariant
holds in this state. -/
def stPartial : DbState :=
  { users := [(1, ⟨100, 5⟩), (2, ⟨100, 2⟩)]
    markets := [⟨100, .mopen, none⟩]
    outcomes := [⟨10, 100⟩, ⟨11, 100⟩]
    orders := [⟨1, 1, 100, 10, .buy, 10, 1/2, 5⟩, ⟨2, 2, 100, 10, .sell, 4, 1/2, 2⟩]
    positions := []
    executions := [] }

/-- Spec scenario 5 state: Alice holds `{Yes: 10}`, Bob holds `{Yes: −10}`
(a short), both with balance 105; no resting orders. -/
def stResolve : DbState :=
  { users := [(1, ⟨105, 0⟩), (2, ⟨105, 0⟩)]
    markets := [⟨100, .mopen, none⟩]
    outcomes := [⟨10, 100⟩, ⟨11, 100⟩]
    orders := []
    positions := [⟨1, 100, [(10, 10)]⟩, ⟨2, 100, [(10, -10)]⟩]
    executions := [] }

/-- Spec scenario 2: Carol (user 1) `buy Yes 10 @ 0.60` (escrow 6), Dave
(user 2) `buy No 10 @ 0.55` (escrow 5.5). -/
def scen2Orders : List Order :=
  [⟨1, 1, 100, 10, .buy, 10, 3/5, 6⟩,
   ⟨2, 2, 100, 11, .buy, 10, 11/20, 11/2⟩]

/-- Spec scenario 3: three outcomes (10, 11, 12), bids `A @ 0.55`,
`B @ 0.50`, `C @ 0.30`, quantity 10 each; `{A, B}` is selected and `C`
receives the pro-rata surplus. -/
def scen3Orders : List Order :=
  [⟨1, 1, 100, 10, .buy, 10, 11/20, 11/2⟩,
   ⟨2, 2, 100, 11, .buy, 10, 1/2, 5⟩,
   ⟨3, 3, 100, 12, .buy, 10, 3/10, 3⟩]

/-- The orders of the partial-fill scenario (`stPartial`). -/
def scenPartialOrders : List Order :=
  [⟨1, 1, 100, 10, .buy, 10, 1/2, 5⟩, ⟨2, 2, 100, 10, .sell, 4, 1/2, 2⟩]

/-- The synthetic match quantity: the minimum remaining quantity over the
greedily selected best bids (`0` when there is no selection). -/
def synMinQty (s : EngSt) (outcomeIds : List Nat) : ℚ :=
  (minRemOpt s.rem (synSelect s.buyBook outcomeIds).1 none).getD 0

/-- Admission scenario: user 1 with balance 100, open market 100 with
outcomes 10 and 11, empty book. -/
def stAdmission : DbState :=
  { users := [(1, ⟨100, 0⟩)]
    markets := [⟨100, .mopen, none⟩]
    outcomes := [⟨10, 100⟩, ⟨11, 100⟩]
    orders := []
    positions := []
    executions := [] }

/-! ## Claim theorems

The `Rat` arithmetic operations are `@[irreducible]` in Batteries; the
concrete evaluations below unseal them locally so that `decide` can reduce. -/

section ConcreteEvaluations

attribute [local semireducible] Rat.add Rat.mul Rat.sub Rat.inv

/-- C1: currency conservation fails on the code.  On spec scenario 1 (a
plain direct match), the balance deltas emitted by `executeMatching` sum to
`+9` while the outstanding escrow drops by `14`, so the claimed conserved
quantity changes by `−5`, not `0`: the direct-match settlement both refunds
the buyer's unspent escrow into `balance` (which was never debited at
admission) and credits the seller's released escrow to `balance`. -/
theorem currency_conservation_fails :
    conservationDelta scen1Orders (executeMatching scen1Orders [] [10, 11] 100) = -5 ∧
    conservationDelta scen1Orders (executeMatching scen1Orders [] [10, 11] 100) ≠ 0 := by
  decide

/-- C2: the direct match on scenario 1 does fire once at the midpoint price
`0.50` for quantity 10 with the claimed position updates, but the emitted
balance deltas are `(−3, −7)` for Alice and `(+12, −7)` for Bob — applying
them to the admission-time state (balance 100, locked = escrow) leaves Alice
at 97 and Bob at 112, not the claimed 95 and 105: the buyer's balance does
not decrease by `quantity·matchPrice = 5`. -/
theorem direct_match_settlement_diverges :
    executeMatching scen1Orders [] [10, 11] 100 =
      { executions := [⟨100, [⟨1, 10, 10, 1/2⟩, ⟨2, 10, -10, 1/2⟩]⟩]
        orderUpdates := [⟨1, 0⟩, ⟨2, 0⟩]
        positionUpdates := [⟨1, 10, 10⟩, ⟨2, 10, -10⟩]
        balanceUpdates := [⟨1, -3, -7⟩, ⟨2, 12, -7⟩] } ∧
    (executeMatching scen1Orders [] [10, 11] 100).balanceUpdates.map
      BalanceUpdate.balanceDelta ≠ [-5, 5] := by
  decide

/-- C3: `resolveMarket` deletes every order and position of the market, but
credits `calculatePayout` only when it is positive: Bob's short holding
`{Yes: −10}` (payout −10) is silently skipped, so his balance stays at 105
instead of the claimed 95, while Alice is credited 10. -/
theorem resolveMarket_skips_negative_payout :
    (resolveMarket stResolve 100 10).2.users = [(1, ⟨115, 0⟩), (2, ⟨105, 0⟩)] ∧
    (resolveMarket stResolve 100 10).2.positions = [] ∧
    (resolveMarket stResolve 100 10).2.orders = [] ∧
    calculatePayout [(10, -10)] 10 = -10 := by
  decide

/-- C5: the escrow-lock invariant holds before the partial fill
(`locked = Σ escrowAmount` for both users) but fails after `executeMarket`:
the engine releases the buyer's escrow proportionally (locked 5 → 3) while
the settlement applier rewrites only the order's `quantity` (10 → 6) and
leaves its stored `escrowAmount` at 5. -/
theorem escrow_lock_invariant_breaks_on_partial_fill :
    lockedOf stPartial 1 = escrowSumOf stPartial 1 ∧
    lockedOf stPartial 2 = escrowSumOf stPartial 2 ∧
    lockedOf (executeMarket stPartial 100).2 1 = 3 ∧
    escrowSumOf (executeMarket stPartial 100).2 1 = 5 ∧
    lockedOf (executeMarket stPartial 100).2 1 ≠
      escrowSumOf (executeMarket stPartial 100).2 1 := by
  decide

/-- C7: match-type priority is inverted.  On an input whose outcome 10 has a
crossing buy/sell pair (a direct match is available, witnessed by
`findDirectMatch` returning a match on the initial books), the engine
nevertheless fires the synthetic match `{10, 11}` first — the only
execution is synthetic, at the bid prices 0.70 and 0.40, and the resting
sell order (id 2) is never touched — because each outer-loop iteration runs
`findSyntheticMatch` before the direct-match loop. -/
theorem synthetic_tried_before_direct :
    (findDirectMatch ((initSt scen7Orders).buyBook 10)
        ((initSt scen7Orders).sellBook 10) ((initSt scen7Orders).rem)).2.2.isSome = true ∧
    (executeMatching scen7Orders [] [10, 11] 100).executions =
      [⟨100, [⟨1, 10, 10, 7/10⟩, ⟨3, 11, 10, 2/5⟩]⟩] ∧
    (executeMatching scen7Orders [] [10, 11] 100).orderUpdates =
      [⟨1, 0⟩, ⟨3, 0⟩] := by
  decide

/-- C8: `calculateEscrow` returns `q·p` for a buy and `max(0, q−c)·(1−p)`
for a sell; on the claimed domain (`q ≥ 0`, `0 < p < 1`) it is never
negative, and selling exactly as many contracts as owned requires zero
escrow.  (It is a pure function by construction.) -/
theorem calculateEscrow_spec (q p c : ℚ) (hq : 0 ≤ q) (hp0 : 0 < p)
    (hp1 : p < 1) :
    calculateEscrow .buy q p c = q * p ∧
    calculateEscrow .sell q p c = max 0 (q - c) * (1 - p) ∧
    0 ≤ calculateEscrow .buy q p c ∧
    0 ≤ calculateEscrow .sell q p c ∧
    calculateEscrow .sell q p q = 0 := by
  refine ⟨rfl, rfl, ?_, ?_, ?_⟩
  · exact mul_nonneg hq hp0.le
  · exact mul_nonneg (le_max_left 0 _) (by linarith)
  · simp [calculateEscrow]

/-- Witness for C8 at `q = 10`, `p = 7/10`, `c = 4`. -/
theorem calculateEscrow_spec_witness :
    (0 : ℚ) ≤ 10 ∧ (0 : ℚ) < 7/10 ∧ (7 : ℚ)/10 < 1 ∧
    (calculateEscrow .buy 10 (7/10) 4 = 10 * (7/10) ∧
     calculateEscrow .sell 10 (7/10) 4 = max 0 (10 - 4) * (1 - 7/10) ∧
     0 ≤ calculateEscrow .buy 10 (7/10) 4 ∧
     0 ≤ calculateEscrow .sell 10 (7/10) 4 ∧
     calculateEscrow .sell 10 (7/10) 10 = 0) :=
  ⟨by decide, by decide, by decide,
   calculateEscrow_spec 10 (7/10) 4 (by decide) (by decide) (by decide)⟩

/-- C9: `createOrder` performs no parameter validation.  With an open
market, a valid outcome, no existing order and ample balance, a zero
quantity passes every check the source makes: the call succeeds and a
zero-quantity order is inserted, although the repository's own
`validateOrder` (never invoked by `createOrder`) rejects that quantity. -/
theorem createOrder_accepts_invalid_quantity :
    (createOrder stAdmission 1 100 10 .buy 0 (1/2) 99).1.success = true ∧
    (createOrder stAdmission 1 100 10 .buy 0 (1/2) 99).2.orders =
      [⟨99, 1, 100, 10, .buy, 0, 1/2, 0⟩] ∧
    validateOrder .buy 0 (1/2) = false := by
  decide

end ConcreteEvaluations

/-! ## Auxiliary lemmas on the engine's building blocks -/

theorem keys_updateUserBalance (l : List (Nat × ℚ × ℚ)) (u : Nat) (db dl : ℚ) :
    (updateUserBalance l u db dl).map (fun x => x.1) =
      if u ∈ l.map (fun x => x.1) then l.map (fun x => x.1)
      else l.map (fun x => x.1) ++ [u] := by
  induction l with
  | nil => simp [updateUserBalance]
  | cons hd t ih =>
      obtain ⟨w, b, k⟩ := hd
      by_cases hw : w = u
      · subst hw
        simp [updateUserBalance]
      · simp only [updateUserBalance, if_neg hw, List.map_cons, ih, List.mem_cons]
        by_cases hm : u ∈ t.map (fun x => x.1)
        · simp [hm, Ne.symm hw]
        · simp [hm, Ne.symm hw]

theorem nodupKeys_updateUserBalance {l : List (Nat × ℚ × ℚ)} (u : Nat)
    (db dl : ℚ) (h : (l.map (fun x => x.1)).Nodup) :
    ((updateUserBalance l u db dl).map (fun x => x.1)).Nodup := by
  rw [keys_updateUserBalance]
  by_cases hm : u ∈ l.map (fun x => x.1)
  · simpa [hm] using h
  · simpa [hm, List.nodup_append] using h

theorem updateUserBalance_of_not_mem {l : List (Nat × ℚ × ℚ)} {u : Nat}
    (db dl : ℚ) (h : u ∉ l.map (fun x => x.1)) :
    updateUserBalance l u db dl = l ++ [(u, db, dl)] := by
  induction l with
  | nil => simp [updateUserBalance]
  | cons hd t ih =>
      obtain ⟨w, b, k⟩ := hd
      simp only [List.map_cons, List.mem_cons] at h
      push_neg at h
      simp [updateUserBalance, Ne.symm h.1, ih h.2]

theorem tagIdx_getElem :
    ∀ (l : List Order) (k : Nat) (om : OrderM), om ∈ tagIdx k l →
      k ≤ om.idx ∧ l[om.idx - k]? = some om.ord := by
  intro l
  induction l with
  | nil => intro k om h; simp [tagIdx] at h
  | cons o rest ih =>
      intro k om h
      simp only [tagIdx, List.mem_cons] at h
      rcases h with h | h
      · subst h
        simp
      · obtain ⟨h1, h2⟩ := ih (k + 1) om h
        refine ⟨by omega, ?_⟩
        have hidx : om.idx - k = (om.idx - (k + 1)) + 1 := by omega
        rw [hidx]
        simpa using h2

theorem tagIdx_map_idx :
    ∀ (l : List Order) (k : Nat), (tagIdx k l).map OrderM.idx = List.range' k l.length := by
  intro l
  induction l with
  | nil => intro k; simp [tagIdx]
  | cons o rest ih => intro k; simp [tagIdx, List.range'_succ, ih]

theorem mem_sortBuysDesc {l : List OrderM} {om : OrderM} :
    om ∈ sortBuysDesc l ↔ om ∈ l :=
  (List.perm_insertionSort _ l).mem_iff

theorem mem_sortSellsAsc {l : List OrderM} {om : OrderM} :
    om ∈ sortSellsAsc l ↔ om ∈ l :=
  (List.perm_insertionSort _ l).mem_iff

theorem mem_sortPairsDesc {l : List (Nat × OrderM)} {x : Nat × OrderM} :
    x ∈ sortPairsDesc l ↔ x ∈ l :=
  (List.perm_insertionSort _ l).mem_iff

theorem nodup_map_sortBuysDesc {l : List OrderM}
    (h : (l.map OrderM.idx).Nodup) : ((sortBuysDesc l).map OrderM.idx).Nodup :=
  (((List.perm_insertionSort _ l).map OrderM.idx).nodup_iff).mpr h

theorem nodup_map_sortSellsAsc {l : List OrderM}
    (h : (l.map OrderM.idx).Nodup) : ((sortSellsAsc l).map OrderM.idx).Nodup :=
  (((List.perm_insertionSort _ l).map OrderM.idx).nodup_iff).mpr h

theorem posSum_append (l1 l2 : List PositionUpdate) (a : Nat) :
    posSum (l1 ++ l2) a = posSum l1 a + posSum l2 a := by
  simp [posSum, List.filter_append]

theorem posSum_nil (a : Nat) : posSum [] a = 0 := rfl

theorem posSum_cons (u : PositionUpdate) (l : List PositionUpdate) (a : Nat) :
    posSum (u :: l) a = (if u.outcomeId = a then u.quantityDelta else 0) + posSum l a := by
  by_cases h : u.outcomeId = a <;> simp [posSum, h]

theorem synSurplus_cons (u : Nat) (q share : ℚ) (so : Nat) (rest : List Nat) :
    synSurplus u q share (so :: rest) =
      (if 0 < q * share then [⟨u, so, q * share⟩] else []) ++
        synSurplus u q share rest := by
  by_cases hpos : 0 < q * share <;>
    simp [synSurplus, List.filterMap_cons, hpos]

theorem posSum_synSurplus_of_not_mem {u : Nat} {q share : ℚ} {nonPart : List Nat}
    {a : Nat} (h : a ∉ nonPart) : posSum (synSurplus u q share nonPart) a = 0 := by
  induction nonPart with
  | nil => simp [synSurplus, posSum_nil]
  | cons so rest ih =>
      simp only [List.mem_cons] at h
      push_neg at h
      rw [synSurplus_cons, posSum_append, ih h.2]
      by_cases hpos : 0 < q * share
      · rw [if_pos hpos, posSum_cons]
        simp [Ne.symm h.1, posSum_nil]
      · rw [if_neg hpos]
        simp [posSum_nil]

theorem posSum_synSurplus {u : Nat} {q share : ℚ} {nonPart : List Nat} {a : Nat}
    (hnd : nonPart.Nodup) (hpos : 0 < q * share) (hmem : a ∈ nonPart) :
    posSum (synSurplus u q share nonPart) a = q * share := by
  induction nonPart with
  | nil => simp at hmem
  | cons so rest ih =>
      simp only [List.nodup_cons] at hnd
      rw [synSurplus_cons, posSum_append, if_pos hpos, posSum_cons]
      rcases List.mem_cons.mp hmem with h | h
      · subst h
        rw [posSum_synSurplus_of_not_mem hnd.1]
        simp [posSum_nil]
      · have hso : so ≠ a := fun hEq => hnd.1 (hEq ▸ h)
        rw [ih hnd.2 h]
        simp [hso, posSum_nil]

theorem posSum_synPosList {q T : ℚ} {nonPart : List Nat} {a : Nat}
    (hq : 0 < q) (hT : 0 < T) (hndN : nonPart.Nodup) :
    ∀ P : List (Nat × OrderM),
      (∀ x ∈ P, 0 < x.2.ord.price) →
      ((P.map (fun x => x.1)).Nodup) →
      (∀ x ∈ P, x.1 ∉ nonPart) →
      posSum (synPosList q T nonPart P) a =
        (if a ∈ P.map (fun x => x.1) then q else 0) +
        (if a ∈ nonPart then q * ((P.map (fun x => x.2.ord.price)).sum / T) else 0) := by
  intro P
  induction P with
  | nil => intro _ _ _; simp [synPosList, posSum_nil]
  | cons x rest ih =>
      intro hp hnd hdisj
      obtain ⟨oid, om⟩ := x
      simp only [List.map_cons, List.nodup_cons] at hnd
      have hpx : 0 < om.ord.price := hp _ (List.mem_cons_self _ _)
      have hshare : 0 < q * (om.ord.price / T) :=
        mul_pos hq (div_pos hpx hT)
      have hoidN : oid ∉ nonPart := hdisj _ (List.mem_cons_self _ _)
      rw [synPosList, List.cons_append, posSum_cons, posSum_append,
        ih (fun y hy => hp y (List.mem_cons_of_mem _ hy)) hnd.2
          (fun y hy => hdisj y (List.mem_cons_of_mem _ hy))]
      by_cases ha : a ∈ nonPart
      · have hao : oid ≠ a := fun hEq => hoidN (hEq ▸ ha)
        have hao2 : a ≠ oid := Ne.symm hao
        have haR : a ∉ rest.map (fun x => x.1) := by
          intro hmem
          rcases List.mem_map.mp hmem with ⟨y, hy, hyEq⟩
          exact hdisj y (List.mem_cons_of_mem _ hy) (hyEq ▸ ha)
        rw [posSum_synSurplus hndN hshare ha]
        simp only [List.map_cons, List.mem_cons, List.sum_cons, ha, if_true,
          hao, hao2, haR, if_false, false_or]
        ring
      · rw [posSum_synSurplus_of_not_mem ha]
        simp only [List.map_cons, List.mem_cons, if_neg ha]
        by_cases hao : oid = a
        · have haR : a ∉ rest.map (fun x => x.1) := by
            intro hmem
            rw [← hao] at hmem
            exact hnd.1 hmem
          simp [hao, haR, posSum_nil]
        · have hao2 : a ≠ oid := fun hEq => hao hEq.symm
          by_cases haR : a ∈ rest.map (fun x => x.1)
          · simp [hao, hao2, haR, posSum_nil]
          · simp [hao, hao2, haR, posSum_nil]

theorem processParticipants_eq (q T : ℚ) (nonPart : List Nat) :
    ∀ (P : List (Nat × OrderM)) (s : EngSt) (parts : List Party),
      processParticipants q T nonPart P s parts =
        ({ s with
            balChanges := balFold q P s.balChanges
            rem := remAfter q (P.map fun x => x.2.idx) s.rem
            posUpds := s.posUpds ++ synPosList q T nonPart P },
         parts ++ P.map fun x => ⟨x.2.ord.userId, x.1, q, x.2.ord.price⟩) := by
  intro P
  induction P with
  | nil =>
      intro s parts
      simp [processParticipants, balFold, remAfter, synPosList]
  | cons x rest ih =>
      intro s parts
      obtain ⟨oid, om⟩ := x
      rw [processParticipants, ih]
      simp only [balFold, remAfter, synPosList, List.map_cons, List.foldl_cons,
        List.append_assoc, List.cons_append, List.singleton_append,
        List.nil_append]

theorem remAfter_eq {q : ℚ} :
    ∀ (idxs : List Nat) (rem : Nat → ℚ) (i : Nat), idxs.Nodup →
      remAfter q idxs rem i = if i ∈ idxs then rem i - q else rem i := by
  intro idxs
  induction idxs with
  | nil => intro rem i _; simp [remAfter]
  | cons j rest ih =>
      intro rem i hnd
      simp only [List.nodup_cons] at hnd
      rw [show remAfter q (j :: rest) rem =
        remAfter q rest (fun i => if i = j then rem i - q else rem i) from rfl,
        ih _ i hnd.2]
      by_cases hij : i ∈ rest
      · have hji : i ≠ j := fun hEq => hnd.1 (hEq ▸ hij)
        simp [hij, hji]
      · by_cases hj : i = j
        · subst hj
          simp [hij]
        · simp [hij, hj]

theorem balFold_keys_nodup {q : ℚ} :
    ∀ (P : List (Nat × OrderM)) (bc : List (Nat × ℚ × ℚ)),
      (bc.map (fun x => x.1)).Nodup → ((balFold q P bc).map (fun x => x.1)).Nodup := by
  intro P
  induction P with
  | nil => intro bc h; simpa [balFold] using h
  | cons x rest ih =>
      intro bc h
      rw [show balFold q (x :: rest) bc =
        balFold q rest (updateUserBalance bc x.2.ord.userId
          (-(q * x.2.ord.price)) (-(q * x.2.ord.price))) from rfl]
      exact ih _ (nodupKeys_updateUserBalance _ _ _ h)

theorem balFold_of_disjoint {q : ℚ} :
    ∀ (P : List (Nat × OrderM)) (bc : List (Nat × ℚ × ℚ)),
      ((P.map fun x => x.2.ord.userId).Nodup) →
      (∀ x ∈ P, x.2.ord.userId ∉ bc.map (fun y => y.1)) →
      balFold q P bc = bc ++ P.map (fun x =>
        (x.2.ord.userId, -(q * x.2.ord.price), -(q * x.2.ord.price))) := by
  intro P
  induction P with
  | nil => intro bc _ _; simp [balFold]
  | cons x rest ih =>
      intro bc hnd hdisj
      simp only [List.map_cons, List.nodup_cons] at hnd
      rw [show balFold q (x :: rest) bc =
        balFold q rest (updateUserBalance bc x.2.ord.userId
          (-(q * x.2.ord.price)) (-(q * x.2.ord.price))) from rfl,
        updateUserBalance_of_not_mem _ _ (hdisj _ (List.mem_cons_self _ _)),
        ih _ ?_ ?_]
      · simp
      · exact hnd.2
      · intro y hy
        rw [List.map_append]
        simp only [List.mem_append, List.map_cons]
        push_neg
        refine ⟨hdisj _ (List.mem_cons_of_mem _ hy), ?_⟩
        simp only [List.map_nil, List.mem_singleton]
        intro hEq
        exact hnd.1 (hEq ▸ List.mem_map_of_mem (fun x => x.2.ord.userId) hy)

theorem greedySelect_sublist :
    ∀ (l : List (Nat × OrderM)) (acc : ℚ), (greedySelect l acc).1.Sublist l := by
  intro l
  induction l with
  | nil => intro acc; simp [greedySelect]
  | cons x xs ih =>
      intro acc
      rw [greedySelect]
      by_cases h : 1 ≤ acc + x.2.ord.price
      · simp only [if_pos h]
        exact (List.nil_sublist xs).cons₂ x
      · simp only [if_neg h]
        exact (ih _).cons₂ x

theorem greedySelect_nil_total :
    ∀ (l : List (Nat × OrderM)) (acc : ℚ),
      (greedySelect l acc).1 = [] → (greedySelect l acc).2 = acc := by
  intro l
  induction l with
  | nil => intro acc _; simp [greedySelect]
  | cons x xs _ =>
      intro acc h
      rw [greedySelect] at h
      by_cases hc : 1 ≤ acc + x.2.ord.price
      · simp [if_pos hc] at h
      · simp [if_neg hc] at h

theorem totalContributionOf_eq :
    ∀ (sel : List (Nat × OrderM)),
      totalContributionOf sel = (sel.map (fun x => x.2.ord.price)).sum := by
  have key : ∀ (sel : List (Nat × OrderM)) (a : ℚ),
      sel.foldl (fun acc x => acc + x.2.ord.price) a =
        a + (sel.map (fun x => x.2.ord.price)).sum := by
    intro sel
    induction sel with
    | nil => intro a; simp
    | cons x xs ih => intro a; simp [ih, add_assoc]
  intro sel
  rw [totalContributionOf, key]
  simp

theorem minRemOpt_nil (rem : Nat → ℚ) (acc : Option ℚ) :
    minRemOpt rem [] acc = acc := rfl

theorem minRemOpt_cons (rem : Nat → ℚ) (x : Nat × OrderM)
    (xs : List (Nat × OrderM)) (acc : Option ℚ) :
    minRemOpt rem (x :: xs) acc =
      minRemOpt rem xs (some (match acc with
        | none => rem x.2.idx
        | some m => min m (rem x.2.idx))) := rfl

theorem minRemOpt_spec (rem : Nat → ℚ) :
    ∀ (sel : List (Nat × OrderM)) (acc : Option ℚ) (q : ℚ),
      minRemOpt rem sel acc = some q →
      (∀ x ∈ sel, q ≤ rem x.2.idx) ∧
      (∀ m, acc = some m → q ≤ m) ∧
      ((∃ x ∈ sel, q = rem x.2.idx) ∨ acc = some q) := by
  intro sel
  induction sel with
  | nil =>
      intro acc q h
      rw [minRemOpt_nil] at h
      refine ⟨by simp, fun m hm => ?_, Or.inr h⟩
      rw [h] at hm
      injection hm with hm
      exact le_of_eq hm
  | cons x xs ih =>
      intro acc q h
      rw [minRemOpt_cons] at h
      rcases acc with _ | m
      · obtain ⟨h1, h2, h3⟩ := ih _ q h
        have hq_le_x : q ≤ rem x.2.idx := h2 _ rfl
        refine ⟨?_, by simp, ?_⟩
        · intro y hy
          rcases List.mem_cons.mp hy with hy | hy
          · exact hy ▸ hq_le_x
          · exact h1 y hy
        · rcases h3 with ⟨y, hy, hyEq⟩ | h3
          · exact Or.inl ⟨y, List.mem_cons_of_mem _ hy, hyEq⟩
          · refine Or.inl ⟨x, List.mem_cons_self _ _, ?_⟩
            injection h3 with h3
            exact h3.symm
      · obtain ⟨h1, h2, h3⟩ := ih _ q h
        have hq_le_min : q ≤ min m (rem x.2.idx) := h2 _ rfl
        have hq_le_x : q ≤ rem x.2.idx := le_trans hq_le_min (min_le_right _ _)
        refine ⟨?_, ?_, ?_⟩
        · intro y hy
          rcases List.mem_cons.mp hy with hy | hy
          · exact hy ▸ hq_le_x
          · exact h1 y hy
        · intro m' hm'
          injection hm' with hm'
          exact hm' ▸ le_trans hq_le_min (min_le_left _ _)
        · rcases h3 with ⟨y, hy, hyEq⟩ | h3
          · exact Or.inl ⟨y, List.mem_cons_of_mem _ hy, hyEq⟩
          · have h4 : some (min m (rem x.2.idx)) = some q := h3
            rcases le_total m (rem x.2.idx) with hmin | hmin
            · right
              rw [min_eq_left hmin] at h4
              injection h4 with h4
              rw [h4]
            · refine Or.inl ⟨x, List.mem_cons_self _ _, ?_⟩
              rw [min_eq_right hmin] at h4
              injection h4 with h4
              exact h4.symm

theorem minRemOpt_isSome (rem : Nat → ℚ) :
    ∀ (sel : List (Nat × OrderM)) (acc : Option ℚ),
      sel ≠ [] ∨ acc.isSome → (minRemOpt rem sel acc).isSome := by
  intro sel
  induction sel with
  | nil =>
      intro acc h
      rcases h with h | h
      · exact absurd rfl h
      · simpa [minRemOpt_nil] using h
  | cons x xs ih =>
      intro acc _
      rw [minRemOpt_cons]
      exact ih _ (Or.inr rfl)

theorem mem_bestBids {book : Nat → List OrderM} {oids : List Nat}
    {x : Nat × OrderM} (h : x ∈ bestBids book oids) :
    x.2 ∈ book x.1 ∧ x.1 ∈ oids := by
  rw [bestBids, List.mem_filterMap] at h
  obtain ⟨a, ha, hfa⟩ := h
  rcases hb : book a with _ | ⟨o, tail⟩
  · rw [hb] at hfa
    simp at hfa
  · rw [hb] at hfa
    simp only [Option.some.injEq] at hfa
    subst hfa
    exact ⟨by rw [hb]; exact List.mem_cons_self _ _, ha⟩

theorem bestBids_map_fst_sublist (book : Nat → List OrderM) :
    ∀ (oids : List Nat), ((bestBids book oids).map (fun x => x.1)).Sublist oids := by
  intro oids
  induction oids with
  | nil => simp [bestBids]
  | cons oid rest ih =>
      rw [bestBids, List.filterMap_cons]
      rcases hb : book oid with _ | ⟨o, tail⟩
      · exact (ih).cons oid
      · simpa [bestBids] using ih.cons₂ oid

theorem findSyntheticMatch_book (book : Nat → List OrderM) (rem : Nat → ℚ)
    (oids : List Nat) :
    (findSyntheticMatch book rem oids).1 = sortedBook book := by
  unfold findSyntheticMatch
  split
  · rfl
  · split
    · rfl
    · split
      · rfl
      · split <;> rfl

theorem findSyntheticMatch_some {book : Nat → List OrderM} {rem : Nat → ℚ}
    {oids : List Nat} {m : SynMatch}
    (h : (findSyntheticMatch book rem oids).2 = some m) :
    m.participants = (synSelect book oids).1 ∧
    m.totalPrice = (synSelect book oids).2 ∧
    1 ≤ (synSelect book oids).2 ∧
    minRemOpt rem (synSelect book oids).1 none = some m.matchQuantity ∧
    m.matchQuantity ≠ 0 := by
  unfold findSyntheticMatch at h
  split at h
  · simp at h
  next h1 =>
    split at h
    · simp at h
    next h2 =>
      split at h
      · simp at h
      next q hmin =>
        split at h
        · simp at h
        next hq =>
          simp only [Option.some.injEq] at h
          subst h
          exact ⟨rfl, rfl, not_lt.mp h2, hmin, hq⟩

theorem cleanupBuys_sublist (rem : Nat → ℚ) :
    ∀ (l : List Nat) (book : Nat → List OrderM) (x : Nat),
      (cleanupBuys book rem l x).Sublist (book x) := by
  intro l
  induction l with
  | nil => intro book x; simp [cleanupBuys]
  | cons oid rest ih =>
      intro book x
      rw [cleanupBuys]
      refine List.Sublist.trans (ih _ x) ?_
      by_cases hx : x = oid
      · subst hx
        simp only [if_pos rfl]
        exact List.filter_sublist _
      · simp only [if_neg hx]
        exact List.Sublist.refl _

/-! ## The engine invariant -/

/-- Structural invariant of the engine state: every book entry is the tagged
copy of the input order at its index, with matching direction and outcome;
per-book index lists are duplicate-free; remaining quantities stay within
`[0, quantity]`; and the balance-change map has unique keys. -/
structure EngInv (orders : List Order) (s : EngSt) : Prop where
  buyWf : ∀ oid om, om ∈ s.buyBook oid → orders[om.idx]? = some om.ord ∧
    om.ord.direction = .buy ∧ om.ord.outcomeId = oid
  sellWf : ∀ oid om, om ∈ s.sellBook oid → orders[om.idx]? = some om.ord ∧
    om.ord.direction = .sell ∧ om.ord.outcomeId = oid
  buyNd : ∀ oid, ((s.buyBook oid).map OrderM.idx).Nodup
  sellNd : ∀ oid, ((s.sellBook oid).map OrderM.idx).Nodup
  remLe : ∀ i, s.rem i ≤ rem0 orders i
  remNonneg : ∀ i, 0 ≤ s.rem i
  balNd : (s.balChanges.map (fun x => x.1)).Nodup

theorem engInv_init (orders : List Order)
    (hQ : ∀ o ∈ orders, 0 < o.quantity) : EngInv orders (initSt orders) := by
  have hmem : ∀ (p : OrderM → Bool) om, om ∈ (tagIdx 0 orders).filter p →
      orders[om.idx]? = some om.ord ∧ p om = true := by
    intro p om h
    obtain ⟨h1, h2⟩ := List.mem_filter.mp h
    obtain ⟨_, h3⟩ := tagIdx_getElem orders 0 om h1
    rw [Nat.sub_zero] at h3
    exact ⟨h3, h2⟩
  have hnd : ∀ (p : OrderM → Bool),
      (((tagIdx 0 orders).filter p).map OrderM.idx).Nodup := by
    intro p
    refine List.Nodup.sublist (List.Sublist.map _ (List.filter_sublist _)) ?_
    rw [tagIdx_map_idx]
    exact List.nodup_range' 0 orders.length
  refine ⟨?_, ?_, fun oid => hnd _, fun oid => hnd _, fun i => le_refl _, ?_, by simp [initSt]⟩
  · intro oid om h
    obtain ⟨h1, h2⟩ := hmem _ om h
    simp only [Bool.and_eq_true, decide_eq_true_eq] at h2
    exact ⟨h1, h2.1, h2.2⟩
  · intro oid om h
    obtain ⟨h1, h2⟩ := hmem _ om h
    simp only [Bool.and_eq_true, decide_eq_true_eq] at h2
    exact ⟨h1, h2.1, h2.2⟩
  · intro i
    show (0 : ℚ) ≤ rem0 orders i
    rcases hi : orders[i]? with _ | o
    · simp [rem0, hi]
    · have hm : o ∈ orders := by
        obtain ⟨hlt, hEq⟩ := List.getElem?_eq_some_iff.mp hi
        exact hEq ▸ List.getElem_mem hlt
      rw [show rem0 orders i = o.quantity by simp [rem0, hi]]
      exact (hQ o hm).le

theorem sortedBook_wf {orders : List Order} {s : EngSt}
    (hInv : EngInv orders s) :
    (∀ oid om, om ∈ sortedBook s.buyBook oid → orders[om.idx]? = some om.ord ∧
      om.ord.direction = .buy ∧ om.ord.outcomeId = oid) ∧
    (∀ oid, ((sortedBook s.buyBook oid).map OrderM.idx).Nodup) := by
  constructor
  · intro oid om h
    exact hInv.buyWf oid om (mem_sortBuysDesc.mp h)
  · intro oid
    exact nodup_map_sortBuysDesc (hInv.buyNd oid)

/-- All the facts needed about the participants selected by a successful
`findSyntheticMatch` call on an invariant-respecting state. -/
theorem synParticipants_facts {orders : List Order} {s : EngSt}
    {outcomeIds : List Nat} {m : SynMatch}
    (hQ : ∀ o ∈ orders, 0 < o.quantity ∧ 0 < o.price)
    (hnd : outcomeIds.Nodup) (hInv : EngInv orders s)
    (hfs : (findSyntheticMatch s.buyBook s.rem outcomeIds).2 = some m) :
    (∀ x ∈ m.participants, orders[x.2.idx]? = some x.2.ord ∧
      x.2.ord.direction = .buy ∧ x.2.ord.outcomeId = x.1 ∧ x.1 ∈ outcomeIds) ∧
    (m.participants.map (fun x => x.1)).Nodup ∧
    (m.participants.map (fun x => x.2.idx)).Nodup ∧
    m.participants ≠ [] ∧
    (∀ x ∈ m.participants, m.matchQuantity ≤ s.rem x.2.idx) ∧
    0 < m.matchQuantity ∧
    (∀ x ∈ m.participants, 0 < x.2.ord.price) := by
  obtain ⟨hpart, _, htot, hmin, hqne⟩ := findSyntheticMatch_some hfs
  have hsubl : m.participants.Sublist
      (sortPairsDesc (bestBids (sortedBook s.buyBook) outcomeIds)) := by
    rw [hpart, synSelect]
    exact greedySelect_sublist _ 0
  have hmemP : ∀ x ∈ m.participants,
      x.2 ∈ sortedBook s.buyBook x.1 ∧ x.1 ∈ outcomeIds := by
    intro x hx
    exact mem_bestBids (mem_sortPairsDesc.mp (hsubl.mem hx))
  have hwf : ∀ x ∈ m.participants, orders[x.2.idx]? = some x.2.ord ∧
      x.2.ord.direction = .buy ∧ x.2.ord.outcomeId = x.1 ∧ x.1 ∈ outcomeIds := by
    intro x hx
    obtain ⟨h1, h2⟩ := hmemP x hx
    obtain ⟨h3, h4, h5⟩ := (sortedBook_wf hInv).1 x.1 x.2 h1
    exact ⟨h3, h4, h5, h2⟩
  have hfstNd : (m.participants.map (fun x => x.1)).Nodup := by
    refine List.Nodup.sublist (hsubl.map _) ?_
    have hperm : (sortPairsDesc (bestBids (sortedBook s.buyBook) outcomeIds)).Perm
        (bestBids (sortedBook s.buyBook) outcomeIds) := List.perm_insertionSort _ _
    rw [(hperm.map (fun x : Nat × OrderM => x.1)).nodup_iff]
    exact List.Nodup.sublist (bestBids_map_fst_sublist _ _) hnd
  have hPnd : m.participants.Nodup := List.Nodup.of_map _ hfstNd
  have hinj := List.inj_on_of_nodup_map hfstNd
  have hidxNd : (m.participants.map (fun x => x.2.idx)).Nodup := by
    rw [List.nodup_map_iff_inj_on hPnd]
    intro x hx y hy hEq
    obtain ⟨hx1, hx2, hx3, _⟩ := hwf x hx
    obtain ⟨hy1, hy2, hy3, _⟩ := hwf y hy
    have hord : x.2.ord = y.2.ord := by
      have h2 : (some x.2.ord : Option Order) = some y.2.ord := hx1.symm.trans (hEq ▸ hy1)
      exact Option.some.inj h2
    have hfst : x.1 = y.1 := by rw [← hx3, ← hy3, hord]
    exact hinj hx hy hfst
  have hne : m.participants ≠ [] := by
    intro hnil
    rw [hpart] at hnil
    have := greedySelect_nil_total _ 0 hnil
    rw [synSelect] at htot
    rw [this] at htot
    norm_num at htot
  obtain ⟨hle, _, hatt⟩ := minRemOpt_spec s.rem _ _ _ hmin
  have hqpos : 0 < m.matchQuantity := by
    rcases hatt with ⟨x, _, hxEq⟩ | hcontra
    · exact lt_of_le_of_ne (hxEq ▸ hInv.remNonneg x.2.idx) (Ne.symm hqne)
    · simp at hcontra
  have hprices : ∀ x ∈ m.participants, 0 < x.2.ord.price := by
    intro x hx
    obtain ⟨h1, _, _, _⟩ := hwf x hx
    have : x.2.ord ∈ orders := by
      obtain ⟨hlt, hEq⟩ := List.getElem?_eq_some_iff.mp h1
      exact hEq ▸ List.getElem_mem hlt
    exact (hQ _ this).2
  refine ⟨hwf, hfstNd, hidxNd, hne, ?_, hqpos, hprices⟩
  intro x hx
  rw [hpart] at hx
  exact hle x hx

theorem syntheticPhase_none {marketId : Nat} {outcomeIds : List Nat} {s : EngSt}
    (hfs : (findSyntheticMatch s.buyBook s.rem outcomeIds).2 = none) :
    syntheticPhase marketId outcomeIds s =
      ({ s with buyBook := sortedBook s.buyBook }, false) := by
  rw [syntheticPhase]
  rw [show (findSyntheticMatch s.buyBook s.rem outcomeIds) =
    ((findSyntheticMatch s.buyBook s.rem outcomeIds).1, none) from
      Prod.ext rfl hfs, findSyntheticMatch_book]

theorem syntheticPhase_some {marketId : Nat} {outcomeIds : List Nat}
    {s : EngSt} {m : SynMatch}
    (hfs : (findSyntheticMatch s.buyBook s.rem outcomeIds).2 = some m) :
    syntheticPhase marketId outcomeIds s =
      (let s0 : EngSt := { s with buyBook := sortedBook s.buyBook }
       let nonPart := outcomeIds.filter
         (fun x => decide (x ∉ m.participants.map (fun y => y.1)))
       let pr := processParticipants m.matchQuantity
         (totalContributionOf m.participants) nonPart m.participants s0 []
       ({ pr.1 with
          execs := pr.1.execs ++ [⟨marketId, pr.2⟩]
          buyBook := cleanupBuys pr.1.buyBook pr.1.rem
            (m.participants.map (fun y => y.1)) }, true)) := by
  rw [syntheticPhase]
  rw [show (findSyntheticMatch s.buyBook s.rem outcomeIds) =
    ((findSyntheticMatch s.buyBook s.rem outcomeIds).1, some m) from
      Prod.ext rfl hfs, findSyntheticMatch_book]

/-- The synthetic phase preserves the engine invariant and the balance of
per-outcome position-update sums (each outcome of a duplicate-free
`outcomeIds` gains exactly `matchQuantity`). -/
theorem syntheticPhase_inv {orders : List Order} {marketId : Nat}
    {outcomeIds : List Nat} {s : EngSt}
    (hQ : ∀ o ∈ orders, 0 < o.quantity ∧ 0 < o.price)
    (hnd : outcomeIds.Nodup) (hInv : EngInv orders s)
    (hG : ∀ a ∈ outcomeIds, ∀ b ∈ outcomeIds,
      posSum s.posUpds a = posSum s.posUpds b) :
    EngInv orders (syntheticPhase marketId outcomeIds s).1 ∧
    (∀ a ∈ outcomeIds, ∀ b ∈ outcomeIds,
      posSum (syntheticPhase marketId outcomeIds s).1.posUpds a =
        posSum (syntheticPhase marketId outcomeIds s).1.posUpds b) := by
  rcases hfs : (findSyntheticMatch s.buyBook s.rem outcomeIds).2 with _ | m
  · rw [syntheticPhase_none hfs]
    refine ⟨⟨?_, hInv.sellWf, ?_, hInv.sellNd, hInv.remLe, hInv.remNonneg, hInv.balNd⟩, hG⟩
    · intro oid om h
      exact hInv.buyWf oid om (mem_sortBuysDesc.mp h)
    · intro oid
      exact nodup_map_sortBuysDesc (hInv.buyNd oid)
  · obtain ⟨hwf, hfstNd, hidxNd, hne, hle, hqpos, hprices⟩ :=
      synParticipants_facts hQ hnd hInv hfs
    rw [syntheticPhase_some hfs]
    simp only [processParticipants_eq]
    set P := m.participants with hP
    set q := m.matchQuantity with hq
    set T := totalContributionOf P with hT
    set nonPart := outcomeIds.filter
      (fun x => decide (x ∉ P.map (fun y => y.1))) with hNP
    have hTsum : T = (P.map (fun x => x.2.ord.price)).sum := totalContributionOf_eq P
    have hTpos : 0 < T := by
      rw [hTsum]
      refine List.sum_pos _ ?_ ?_
      · intro p hp
        rcases List.mem_map.mp hp with ⟨x, hx, hxEq⟩
        exact hxEq ▸ hprices x hx
      · simpa using hne
    have hndN : nonPart.Nodup := hnd.filter _
    have hdisj : ∀ x ∈ P, x.1 ∉ nonPart := by
      intro x hx hmem
      obtain ⟨_, hdec⟩ := List.mem_filter.mp hmem
      exact (decide_eq_true_eq.mp hdec) (List.mem_map_of_mem (fun y => y.1) hx)
    have hremNew : ∀ i, remAfter q (P.map fun x => x.2.idx) s.rem i =
        if i ∈ P.map (fun x => x.2.idx) then s.rem i - q else s.rem i :=
      fun i => remAfter_eq _ s.rem i hidxNd
    constructor
    · refine ⟨?_, hInv.sellWf, ?_, hInv.sellNd, ?_, ?_, ?_⟩
      · intro oid om h
        have h1 : om ∈ sortedBook s.buyBook oid :=
          (cleanupBuys_sublist _ _ _ oid).mem h
        exact hInv.buyWf oid om (mem_sortBuysDesc.mp h1)
      · intro oid
        refine List.Nodup.sublist
          ((cleanupBuys_sublist _ _ _ oid).map OrderM.idx) ?_
        exact nodup_map_sortBuysDesc (hInv.buyNd oid)
      · intro i
        dsimp only
        rw [hremNew i]
        by_cases hi : i ∈ P.map (fun x => x.2.idx)
        · rw [if_pos hi]
          exact le_trans (by linarith [hqpos]) (hInv.remLe i)
        · rw [if_neg hi]
          exact hInv.remLe i
      · intro i
        dsimp only
        rw [hremNew i]
        by_cases hi : i ∈ P.map (fun x => x.2.idx)
        · rw [if_pos hi]
          rcases List.mem_map.mp hi with ⟨x, hx, hxEq⟩
          have := hle x hx
          rw [hxEq] at this
          linarith
        · rw [if_neg hi]
          exact hInv.remNonneg i
      · exact balFold_keys_nodup P s.balChanges hInv.balNd
    · intro a ha b hb
      have key : ∀ c ∈ outcomeIds, posSum (synPosList q T nonPart P) c = q := by
        intro c hc
        rw [posSum_synPosList hqpos hTpos hndN P hprices hfstNd hdisj]
        by_cases hcP : c ∈ P.map (fun x => x.1)
        · have hcN : c ∉ nonPart := by
            intro hmem
            obtain ⟨_, hdec⟩ := List.mem_filter.mp hmem
            exact (decide_eq_true_eq.mp hdec) hcP
          rw [if_pos hcP, if_neg hcN]
          simp
        · have hcN : c ∈ nonPart :=
            List.mem_filter.mpr ⟨hc, decide_eq_true hcP⟩
          rw [if_neg hcP, if_pos hcN, ← hTsum, div_self (ne_of_gt hTpos)]
          simp
      rw [posSum_append, posSum_append, key a ha, key b hb, hG a ha b hb]

theorem findDirectMatch_perm (buyOrders sellOrders : List OrderM)
    (rem : Nat → ℚ) :
    (findDirectMatch buyOrders sellOrders rem).1.Perm buyOrders ∧
    (findDirectMatch buyOrders sellOrders rem).2.1.Perm sellOrders := by
  unfold findDirectMatch
  split
  · exact ⟨List.Perm.refl _, List.Perm.refl _⟩
  · split
    all_goals try split
    all_goals try split
    all_goals exact ⟨List.perm_insertionSort _ _, List.perm_insertionSort _ _⟩

theorem findDirectMatch_some {buyOrders sellOrders : List OrderM}
    {rem : Nat → ℚ} {dm : DirectMatch}
    (h : (findDirectMatch buyOrders sellOrders rem).2.2 = some dm) :
    dm.buyOrder ∈ buyOrders ∧ dm.sellOrder ∈ sellOrders ∧
    dm.matchQuantity = min (rem dm.buyOrder.idx) (rem dm.sellOrder.idx) ∧
    dm.matchQuantity ≠ 0 := by
  unfold findDirectMatch at h
  split at h
  · simp at h
  · split at h
    next bb rB bs rS hB hS =>
      split at h
      · simp at h
      · split at h
        next hq0 => simp at h
        next hq0 =>
          simp only [Option.some.injEq] at h
          subst h
          refine ⟨?_, ?_, rfl, hq0⟩
          · exact mem_sortBuysDesc.mp (hB ▸ List.mem_cons_self _ _)
          · exact mem_sortSellsAsc.mp (hS ▸ List.mem_cons_self _ _)
    all_goals simp at h

theorem ite_filter_sublist (c : Prop) [Decidable c] {α : Type _} (l : List α)
    (p : α → Bool) : (if c then l.filter p else l).Sublist l := by
  split
  · exact List.filter_sublist l
  · exact List.Sublist.refl l

theorem directSettle_inv {orders : List Order} {marketId oid : Nat}
    {s : EngSt} {dm : DirectMatch}
    (hInv : EngInv orders s)
    (hb : dm.buyOrder ∈ s.buyBook oid) (hs : dm.sellOrder ∈ s.sellBook oid)
    (hqmin : dm.matchQuantity = min (s.rem dm.buyOrder.idx) (s.rem dm.sellOrder.idx))
    (hqne : dm.matchQuantity ≠ 0) :
    EngInv orders (directSettle marketId oid s (s.buyBook oid) (s.sellBook oid) dm) ∧
    (∀ a : Nat,
      posSum (directSettle marketId oid s (s.buyBook oid) (s.sellBook oid) dm).posUpds a =
        posSum s.posUpds a) := by
  obtain ⟨hb1, hb2, hb3⟩ := hInv.buyWf oid dm.buyOrder hb
  obtain ⟨hs1, hs2, hs3⟩ := hInv.sellWf oid dm.sellOrder hs
  have hne : dm.buyOrder.idx ≠ dm.sellOrder.idx := by
    intro hEq
    have h := hb1.symm.trans (hEq ▸ hs1)
    have hord := Option.some.inj h
    rw [← hord] at hs2
    rw [hb2] at hs2
    exact Direction.noConfusion hs2
  have hq0 : 0 ≤ dm.matchQuantity := by
    rw [hqmin]
    exact le_min (hInv.remNonneg _) (hInv.remNonneg _)
  have hqpos : 0 < dm.matchQuantity := lt_of_le_of_ne hq0 (Ne.symm hqne)
  have hqb : dm.matchQuantity ≤ s.rem dm.buyOrder.idx := hqmin ▸ min_le_left _ _
  have hqs : dm.matchQuantity ≤ s.rem dm.sellOrder.idx := hqmin ▸ min_le_right _ _
  constructor
  · refine ⟨?_, ?_, ?_, ?_, ?_, ?_, ?_⟩
    · intro x om h
      dsimp only [directSettle] at h
      by_cases hx : x = oid
      · rw [if_pos hx] at h
        subst hx
        exact hInv.buyWf x om ((ite_filter_sublist _ _ _).mem h)
      · rw [if_neg hx] at h
        exact hInv.buyWf x om h
    · intro x om h
      dsimp only [directSettle] at h
      by_cases hx : x = oid
      · rw [if_pos hx] at h
        subst hx
        exact hInv.sellWf x om ((ite_filter_sublist _ _ _).mem h)
      · rw [if_neg hx] at h
        exact hInv.sellWf x om h
    · intro x
      dsimp only [directSettle]
      by_cases hx : x = oid
      · rw [if_pos hx]
        subst hx
        exact List.Nodup.sublist ((ite_filter_sublist _ _ _).map _) (hInv.buyNd x)
      · rw [if_neg hx]
        exact hInv.buyNd x
    · intro x
      dsimp only [directSettle]
      by_cases hx : x = oid
      · rw [if_pos hx]
        subst hx
        exact List.Nodup.sublist ((ite_filter_sublist _ _ _).map _) (hInv.sellNd x)
      · rw [if_neg hx]
        exact hInv.sellNd x
    · intro i
      dsimp only [directSettle]
      by_cases hiS : i = dm.sellOrder.idx
      · rw [if_pos hiS]
        by_cases hiB : i = dm.buyOrder.idx
        · exact absurd (hiB.symm.trans hiS) hne
        · rw [if_neg hiB]
          exact le_trans (by linarith) (hInv.remLe i)
      · rw [if_neg hiS]
        by_cases hiB : i = dm.buyOrder.idx
        · rw [if_pos hiB]
          exact le_trans (by linarith) (hInv.remLe i)
        · rw [if_neg hiB]
          exact hInv.remLe i
    · intro i
      dsimp only [directSettle]
      by_cases hiS : i = dm.sellOrder.idx
      · rw [if_pos hiS]
        by_cases hiB : i = dm.buyOrder.idx
        · exact absurd (hiB.symm.trans hiS) hne
        · rw [if_neg hiB]
          subst hiS
          linarith
      · rw [if_neg hiS]
        by_cases hiB : i = dm.buyOrder.idx
        · rw [if_pos hiB]
          subst hiB
          linarith
        · rw [if_neg hiB]
          exact hInv.remNonneg i
    · dsimp only [directSettle]
      exact nodupKeys_updateUserBalance _ _ _
        (nodupKeys_updateUserBalance _ _ _ hInv.balNd)
  · intro a
    dsimp only [directSettle]
    rw [posSum_append, posSum_cons, posSum_cons, posSum_nil]
    by_cases ha : oid = a
    · rw [if_pos ha, if_pos ha]
      ring
    · rw [if_neg ha, if_neg ha]
      ring

theorem directPhase_inv {orders : List Order} {marketId : Nat} :
    ∀ (oids : List Nat) (s : EngSt), EngInv orders s →
      EngInv orders (directPhase marketId s oids).1 ∧
      (∀ a : Nat,
        posSum (directPhase marketId s oids).1.posUpds a = posSum s.posUpds a) := by
  intro oids
  induction oids with
  | nil => intro s hInv; exact ⟨hInv, fun a => rfl⟩
  | cons oid rest ih =>
      intro s hInv
      rcases hfd : findDirectMatch (s.buyBook oid) (s.sellBook oid) s.rem with ⟨sb, ss, odm⟩
      have hperm := findDirectMatch_perm (s.buyBook oid) (s.sellBook oid) s.rem
      rw [hfd] at hperm
      have hInv0 : EngInv orders
          { s with
            buyBook := fun x => if x = oid then sb else s.buyBook x
            sellBook := fun x => if x = oid then ss else s.sellBook x } := by
        refine ⟨?_, ?_, ?_, ?_, hInv.remLe, hInv.remNonneg, hInv.balNd⟩
        · intro x om h
          dsimp only at h
          by_cases hx : x = oid
          · rw [if_pos hx] at h
            subst hx
            exact hInv.buyWf x om ((hperm.1.mem_iff).mp h)
          · rw [if_neg hx] at h
            exact hInv.buyWf x om h
        · intro x om h
          dsimp only at h
          by_cases hx : x = oid
          · rw [if_pos hx] at h
            subst hx
            exact hInv.sellWf x om ((hperm.2.mem_iff).mp h)
          · rw [if_neg hx] at h
            exact hInv.sellWf x om h
        · intro x
          dsimp only
          by_cases hx : x = oid
          · rw [if_pos hx]
            subst hx
            exact ((hperm.1.map OrderM.idx).nodup_iff).mpr (hInv.buyNd x)
          · rw [if_neg hx]
            exact hInv.buyNd x
        · intro x
          dsimp only
          by_cases hx : x = oid
          · rw [if_pos hx]
            subst hx
            exact ((hperm.2.map OrderM.idx).nodup_iff).mpr (hInv.sellNd x)
          · rw [if_neg hx]
            exact hInv.sellNd x
      rcases odm with _ | dm
      · rw [show directPhase marketId s (oid :: rest) =
          directPhase marketId
            { s with
              buyBook := fun x => if x = oid then sb else s.buyBook x
              sellBook := fun x => if x = oid then ss else s.sellBook x } rest by
            rw [directPhase, hfd]]
        exact ih _ hInv0
      · obtain ⟨hmb, hms, hqmin, hqne⟩ := findDirectMatch_some (hfd ▸ rfl :
          (findDirectMatch (s.buyBook oid) (s.sellBook oid) s.rem).2.2 = some dm)
        set s0 : EngSt :=
          { s with
            buyBook := fun x => if x = oid then sb else s.buyBook x
            sellBook := fun x => if x = oid then ss else s.sellBook x } with hs0
        have hmb0 : dm.buyOrder ∈ s0.buyBook oid := by
          rw [hs0]
          dsimp only
          rw [if_pos rfl]
          exact (hperm.1.mem_iff).mpr hmb
        have hms0 : dm.sellOrder ∈ s0.sellBook oid := by
          rw [hs0]
          dsimp only
          rw [if_pos rfl]
          exact (hperm.2.mem_iff).mpr hms
        have hres : directPhase marketId s (oid :: rest) =
            (directSettle marketId oid s0 sb ss dm, true) := by
          rw [directPhase, hfd]
        have hbooks : sb = s0.buyBook oid ∧ ss = s0.sellBook oid := by
          rw [hs0]
          dsimp only
          rw [if_pos rfl, if_pos rfl]
          exact ⟨rfl, rfl⟩
        rw [hres, hbooks.1, hbooks.2]
        have := @directSettle_inv orders marketId oid _ dm hInv0 hmb0 hms0 hqmin hqne
        exact ⟨this.1, this.2⟩

theorem engineIter_fst (marketId : Nat) (outcomeIds : List Nat) (s : EngSt) :
    (engineIter marketId outcomeIds s).1 =
      (directPhase marketId (syntheticPhase marketId outcomeIds s).1 outcomeIds).1 := rfl

theorem engineIter_inv {orders : List Order} {marketId : Nat}
    {outcomeIds : List Nat} {s : EngSt}
    (hQ : ∀ o ∈ orders, 0 < o.quantity ∧ 0 < o.price)
    (hnd : outcomeIds.Nodup) (hInv : EngInv orders s)
    (hG : ∀ a ∈ outcomeIds, ∀ b ∈ outcomeIds,
      posSum s.posUpds a = posSum s.posUpds b) :
    EngInv orders (engineIter marketId outcomeIds s).1 ∧
    (∀ a ∈ outcomeIds, ∀ b ∈ outcomeIds,
      posSum (engineIter marketId outcomeIds s).1.posUpds a =
        posSum (engineIter marketId outcomeIds s).1.posUpds b) := by
  obtain ⟨hInv1, hG1⟩ := syntheticPhase_inv hQ hnd hInv hG
  obtain ⟨hInv2, hEq2⟩ := @directPhase_inv orders marketId outcomeIds _ hInv1
  rw [engineIter_fst]
  refine ⟨hInv2, ?_⟩
  intro a ha b hb
  rw [hEq2 a, hEq2 b]
  exact hG1 a ha b hb

theorem engineLoop_succ (marketId : Nat) (outcomeIds : List Nat)
    (fuel : Nat) (s : EngSt) :
    engineLoop marketId outcomeIds (fuel + 1) s =
      if (engineIter marketId outcomeIds s).2 then
        engineLoop marketId outcomeIds fuel (engineIter marketId outcomeIds s).1
      else (engineIter marketId outcomeIds s).1 := rfl

theorem engineLoop_inv {orders : List Order} {marketId : Nat}
    {outcomeIds : List Nat}
    (hQ : ∀ o ∈ orders, 0 < o.quantity ∧ 0 < o.price)
    (hnd : outcomeIds.Nodup) :
    ∀ (fuel : Nat) (s : EngSt), EngInv orders s →
      (∀ a ∈ outcomeIds, ∀ b ∈ outcomeIds,
        posSum s.posUpds a = posSum s.posUpds b) →
      EngInv orders (engineLoop marketId outcomeIds fuel s) ∧
      (∀ a ∈ outcomeIds, ∀ b ∈ outcomeIds,
        posSum (engineLoop marketId outcomeIds fuel s).posUpds a =
          posSum (engineLoop marketId outcomeIds fuel s).posUpds b) := by
  intro fuel
  induction fuel with
  | zero => intro s hInv hG; exact ⟨hInv, hG⟩
  | succ fuel ih =>
      intro s hInv hG
      obtain ⟨hInv1, hG1⟩ := engineIter_inv hQ hnd hInv hG
      rw [engineLoop_succ]
      by_cases hfire : (engineIter marketId outcomeIds s).2
      · rw [if_pos hfire]
        exact ih _ hInv1 hG1
      · rw [if_neg hfire]
        exact ⟨hInv1, hG1⟩

theorem executeMatching_posUpds (orders : List Order) (positions : List Position)
    (outcomeIds : List Nat) (marketId : Nat) :
    (executeMatching orders positions outcomeIds marketId).positionUpdates =
      (engineLoop marketId outcomeIds (orders.length + 1) (initSt orders)).posUpds := rfl

theorem executeMatching_balUpds (orders : List Order) (positions : List Position)
    (outcomeIds : List Nat) (marketId : Nat) :
    (executeMatching orders positions outcomeIds marketId).balanceUpdates =
      (engineLoop marketId outcomeIds (orders.length + 1) (initSt orders)).balChanges.map
        (fun x => ⟨x.1, x.2.1, x.2.2⟩) := rfl

theorem executeMatching_ordUpds (orders : List Order) (positions : List Position)
    (outcomeIds : List Nat) (marketId : Nat) :
    (executeMatching orders positions outcomeIds marketId).orderUpdates =
      (tagIdx 0 orders).filterMap (fun om =>
        if (engineLoop marketId outcomeIds (orders.length + 1) (initSt orders)).rem om.idx
            ≠ om.ord.quantity then
          some ⟨om.ord.id,
            (engineLoop marketId outcomeIds (orders.length + 1) (initSt orders)).rem om.idx⟩
        else none) := rfl

theorem ordersPos_of_all {orders : List Order}
    (hQ : orders.all (fun o =>
      decide (0 < o.quantity) && decide (0 < o.price)) = true) :
    ∀ o ∈ orders, 0 < o.quantity ∧ 0 < o.price := by
  intro o ho
  have := List.all_eq_true.mp hQ o ho
  simpa [Bool.and_eq_true, decide_eq_true_eq] using this

/-- C4: basket conservation of the engine output.  For any input whose
orders all have positive quantity and price (every admitted order does) and
whose outcome-id list is duplicate-free, the position updates emitted by
`executeMatching` add the same total quantity to every outcome of the
market: a direct match nets zero per outcome, and a synthetic match adds
exactly `matchQuantity` to each selected outcome and, pro-rata across
participants, `matchQuantity` to each non-selected outcome. -/
theorem executeMatching_basket_conservation (orders : List Order)
    (positions : List Position) (outcomeIds : List Nat) (marketId a b : Nat)
    (hQ : orders.all (fun o =>
      decide (0 < o.quantity) && decide (0 < o.price)) = true)
    (hnd : outcomeIds.Nodup) (ha : a ∈ outcomeIds) (hb : b ∈ outcomeIds) :
    posSum (executeMatching orders positions outcomeIds marketId).positionUpdates a =
      posSum (executeMatching orders positions outcomeIds marketId).positionUpdates b := by
  have hQ' := ordersPos_of_all hQ
  have hInit := engInv_init orders (fun o ho => (hQ' o ho).1)
  have hG0 : ∀ x ∈ outcomeIds, ∀ y ∈ outcomeIds,
      posSum (initSt orders).posUpds x = posSum (initSt orders).posUpds y := by
    intro x _ y _
    rfl
  obtain ⟨_, hG⟩ := @engineLoop_inv orders marketId outcomeIds hQ' hnd
    (orders.length + 1) (initSt orders) hInit hG0
  rw [executeMatching_posUpds]
  exact hG a ha b hb

/-- C10: shape of the engine output.  For any well-formed input (positive
order quantities and prices, duplicate-free outcome ids), the
`balanceUpdates` list contains at most one entry per user (the per-user
deltas are aggregated in a keyed map), and every `orderUpdates` entry
refers to an input order and carries `0 ≤ newQuantity < quantity`; updates
are emitted exactly for the orders whose remaining quantity changed, so
every emitted update is a strict decrease. -/
theorem executeMatching_output_shape (orders : List Order)
    (positions : List Position) (outcomeIds : List Nat) (marketId : Nat)
    (hQ : orders.all (fun o =>
      decide (0 < o.quantity) && decide (0 < o.price)) = true)
    (hnd : outcomeIds.Nodup) :
    ((executeMatching orders positions outcomeIds marketId).balanceUpdates.map
      BalanceUpdate.userId).Nodup ∧
    ((executeMatching orders positions outcomeIds marketId).orderUpdates.all fun u =>
      orders.any fun o => decide (u.orderId = o.id) && decide (0 ≤ u.newQuantity) &&
        decide (u.newQuantity < o.quantity)) = true := by
  have hQ' := ordersPos_of_all hQ
  have hInit := engInv_init orders (fun o ho => (hQ' o ho).1)
  have hG0 : ∀ x ∈ outcomeIds, ∀ y ∈ outcomeIds,
      posSum (initSt orders).posUpds x = posSum (initSt orders).posUpds y := by
    intro x _ y _
    rfl
  obtain ⟨hInv, _⟩ := @engineLoop_inv orders marketId outcomeIds hQ' hnd
    (orders.length + 1) (initSt orders) hInit hG0
  constructor
  · rw [executeMatching_balUpds, List.map_map]
    exact hInv.balNd
  · rw [executeMatching_ordUpds, List.all_eq_true]
    intro u hu
    rw [List.mem_filterMap] at hu
    obtain ⟨om, hom, hval⟩ := hu
    split at hval
    next hchanged =>
      simp only [Option.some.injEq] at hval
      subst hval
      obtain ⟨_, hget⟩ := tagIdx_getElem orders 0 om hom
      rw [Nat.sub_zero] at hget
      have homem : om.ord ∈ orders := by
        obtain ⟨hlt, hEq⟩ := List.getElem?_eq_some_iff.mp hget
        exact hEq ▸ List.getElem_mem hlt
      rw [List.any_eq_true]
      refine ⟨om.ord, homem, ?_⟩
      have hrem0 : rem0 orders om.idx = om.ord.quantity := by
        simp [rem0, hget]
      have hle := hInv.remLe om.idx
      have hnn := hInv.remNonneg om.idx
      rw [hrem0] at hle
      simp only [Bool.and_eq_true, decide_eq_true_eq]
      exact ⟨⟨trivial, hnn⟩, lt_of_le_of_ne hle hchanged⟩
    · exact absurd hval (by simp)

theorem synSurplus_eq_map {u : Nat} {q share : ℚ} {nonPart : List Nat}
    (hpos : 0 < q * share) :
    synSurplus u q share nonPart =
      nonPart.map (fun so => ⟨u, so, q * share⟩) := by
  induction nonPart with
  | nil => rfl
  | cons so rest ih =>
      rw [synSurplus_cons, if_pos hpos, ih]
      rfl

theorem synPosList_eq_flatMap {q T : ℚ} {nonPart : List Nat} :
    ∀ P : List (Nat × OrderM), (∀ x ∈ P, 0 < q * (x.2.ord.price / T)) →
      synPosList q T nonPart P = P.flatMap (fun x =>
        (⟨x.2.ord.userId, x.1, q⟩ : PositionUpdate) :: nonPart.map
          (fun so => ⟨x.2.ord.userId, so, q * (x.2.ord.price / T)⟩)) := by
  intro P
  induction P with
  | nil => intro _; rfl
  | cons x rest ih =>
      intro hpos
      obtain ⟨oid, om⟩ := x
      rw [synPosList, synSurplus_eq_map (hpos _ (List.mem_cons_self _ _)),
        ih (fun y hy => hpos y (List.mem_cons_of_mem _ hy)), List.flatMap_cons]

/-- C6: the synthetic match of the engine, characterised on a state whose
accumulators are empty (the situation at the head of the first outer-loop
iteration).  Let the greedy selection over the best bids sorted by price
descending be `synSelect`.  If its running total never reaches `1.0` there
is no synthetic match and the state is unchanged apart from the in-place
sort of the buy book.  If the total reaches `1.0`, the match fires with
`matchQuantity` equal to the minimum remaining quantity of the selected
best orders; each participating buyer has balance and locked reduced by
`matchQuantity · bidPrice`, receives `matchQuantity` contracts of their bid
outcome at recorded effective price `bidPrice`, and receives
`matchQuantity · (bidPrice / Σ selected bidPrices)` surplus contracts of
every outcome outside the selection. -/
theorem syntheticPhase_spec (marketId : Nat) (outcomeIds : List Nat) (s : EngSt)
    (hb : s.balChanges = []) (he : s.execs = []) (hp : s.posUpds = [])
    (hP : (synSelect s.buyBook outcomeIds).1.all
      (fun x => decide (0 < s.rem x.2.idx) && decide (0 < x.2.ord.price)) = true)
    (husers : ((synSelect s.buyBook outcomeIds).1.map
      (fun x => x.2.ord.userId)).Nodup) :
    ((synSelect s.buyBook outcomeIds).2 < 1 →
      syntheticPhase marketId outcomeIds s =
        ({ s with buyBook := sortedBook s.buyBook }, false)) ∧
    (1 ≤ (synSelect s.buyBook outcomeIds).2 →
      minRemOpt s.rem (synSelect s.buyBook outcomeIds).1 none =
        some (synMinQty s outcomeIds) ∧
      (syntheticPhase marketId outcomeIds s).2 = true ∧
      (syntheticPhase marketId outcomeIds s).1.execs =
        [⟨marketId, (synSelect s.buyBook outcomeIds).1.map (fun x =>
          ⟨x.2.ord.userId, x.1, synMinQty s outcomeIds, x.2.ord.price⟩)⟩] ∧
      (syntheticPhase marketId outcomeIds s).1.balChanges =
        (synSelect s.buyBook outcomeIds).1.map (fun x =>
          (x.2.ord.userId, -(synMinQty s outcomeIds * x.2.ord.price),
           -(synMinQty s outcomeIds * x.2.ord.price))) ∧
      (syntheticPhase marketId outcomeIds s).1.posUpds =
        (synSelect s.buyBook outcomeIds).1.flatMap (fun x =>
          (⟨x.2.ord.userId, x.1, synMinQty s outcomeIds⟩ : PositionUpdate) ::
            (outcomeIds.filter (fun y =>
              decide (y ∉ (synSelect s.buyBook outcomeIds).1.map (fun z => z.1)))).map
              (fun so => ⟨x.2.ord.userId, so,
                synMinQty s outcomeIds *
                  (x.2.ord.price /
                    totalContributionOf (synSelect s.buyBook outcomeIds).1)⟩))) := by
  constructor
  · intro hlt
    have hfs : (findSyntheticMatch s.buyBook s.rem outcomeIds).2 = none := by
      unfold findSyntheticMatch
      by_cases hE : (bestBids (sortedBook s.buyBook) outcomeIds).isEmpty
      · rw [if_pos hE]
      · rw [if_neg hE, if_pos hlt]
    exact syntheticPhase_none hfs
  · intro hge
    have hPfacts : ∀ x ∈ (synSelect s.buyBook outcomeIds).1,
        0 < s.rem x.2.idx ∧ 0 < x.2.ord.price := by
      intro x hx
      have := List.all_eq_true.mp hP x hx
      simpa [Bool.and_eq_true, decide_eq_true_eq] using this
    have hne : (synSelect s.buyBook outcomeIds).1 ≠ [] := by
      intro hnil
      rw [synSelect] at hnil
      have h0 := greedySelect_nil_total _ 0 hnil
      rw [synSelect] at hge
      rw [h0] at hge
      norm_num at hge
    obtain ⟨q, hq⟩ := Option.isSome_iff_exists.mp
      (minRemOpt_isSome s.rem _ none (Or.inl hne))
    have hq0 : synMinQty s outcomeIds = q := by
      rw [synMinQty, hq]
      rfl
    obtain ⟨hle, _, hatt⟩ := minRemOpt_spec s.rem _ _ _ hq
    have hqpos : 0 < q := by
      rcases hatt with ⟨x, hx, hxEq⟩ | hcontra
      · exact hxEq ▸ (hPfacts x hx).1
      · simp at hcontra
    have hEmpty : ¬(bestBids (sortedBook s.buyBook) outcomeIds).isEmpty = true := by
      intro hE
      have hbids : bestBids (sortedBook s.buyBook) outcomeIds = [] :=
        List.isEmpty_iff.mp hE
      have hsubl : (synSelect s.buyBook outcomeIds).1.Sublist
          (sortPairsDesc (bestBids (sortedBook s.buyBook) outcomeIds)) := by
        rw [synSelect]
        exact greedySelect_sublist _ 0
      rw [hbids] at hsubl
      exact hne (List.sublist_nil.mp (by simpa [sortPairsDesc, List.insertionSort]
        using hsubl))
    have hfs : (findSyntheticMatch s.buyBook s.rem outcomeIds).2 =
        some ⟨q, (synSelect s.buyBook outcomeIds).1,
          (synSelect s.buyBook outcomeIds).2⟩ := by
      unfold findSyntheticMatch
      rw [if_neg hEmpty, if_neg (not_lt.mpr hge), hq]
      dsimp only
      rw [if_neg (ne_of_gt hqpos)]
    have hT : totalContributionOf (synSelect s.buyBook outcomeIds).1 =
        ((synSelect s.buyBook outcomeIds).1.map (fun x => x.2.ord.price)).sum :=
      totalContributionOf_eq _
    have hTpos : 0 < totalContributionOf (synSelect s.buyBook outcomeIds).1 := by
      rw [hT]
      refine List.sum_pos _ ?_ ?_
      · intro p hpm
        rcases List.mem_map.mp hpm with ⟨x, hx, hxEq⟩
        exact hxEq ▸ (hPfacts x hx).2
      · simpa using hne
    have hshare : ∀ x ∈ (synSelect s.buyBook outcomeIds).1,
        0 < q * (x.2.ord.price /
          totalContributionOf (synSelect s.buyBook outcomeIds).1) := by
      intro x hx
      exact mul_pos hqpos (div_pos (hPfacts x hx).2 hTpos)
    rw [hq0]
    refine ⟨hq, ?_, ?_, ?_, ?_⟩
    · rw [syntheticPhase_some hfs]
    · rw [syntheticPhase_some hfs]
      simp only [processParticipants_eq]
      rw [he]
      rfl
    · rw [syntheticPhase_some hfs]
      simp only [processParticipants_eq]
      show balFold q (synSelect s.buyBook outcomeIds).1 s.balChanges = _
      rw [hb, balFold_of_disjoint _ [] husers (by simp)]
      rfl
    · rw [syntheticPhase_some hfs]
      simp only [processParticipants_eq]
      show s.posUpds ++ synPosList q
        (totalContributionOf (synSelect s.buyBook outcomeIds).1) _ _ = _
      rw [hp, synPosList_eq_flatMap _ hshare]
      rfl

/-! ## Witnesses for the claim theorems with hypotheses -/

section ConcreteWitnesses

attribute [local semireducible] Rat.add Rat.mul Rat.sub Rat.inv

/-- Witness for C4 on spec scenario 3 (three outcomes, one of them outside
the synthetic selection). -/
theorem executeMatching_basket_conservation_witness :
    scen3Orders.all (fun o =>
      decide (0 < o.quantity) && decide (0 < o.price)) = true ∧
    ([10, 11, 12] : List Nat).Nodup ∧
    (10 : Nat) ∈ [10, 11, 12] ∧ (12 : Nat) ∈ [10, 11, 12] ∧
    posSum (executeMatching scen3Orders [] [10, 11, 12] 100).positionUpdates 10 =
      posSum (executeMatching scen3Orders [] [10, 11, 12] 100).positionUpdates 12 :=
  ⟨by decide, by decide, by decide, by decide,
   executeMatching_basket_conservation scen3Orders [] [10, 11, 12] 100 10 12
     (by decide) (by decide) (by decide) (by decide)⟩

/-- Witness for C10 on the partial-fill scenario. -/
theorem executeMatching_output_shape_witness :
    scenPartialOrders.all (fun o =>
      decide (0 < o.quantity) && decide (0 < o.price)) = true ∧
    ([10, 11] : List Nat).Nodup ∧
    (((executeMatching scenPartialOrders [] [10, 11] 100).balanceUpdates.map
      BalanceUpdate.userId).Nodup ∧
    ((executeMatching scenPartialOrders [] [10, 11] 100).orderUpdates.all fun u =>
      scenPartialOrders.any fun o =>
        decide (u.orderId = o.id) && decide (0 ≤ u.newQuantity) &&
          decide (u.newQuantity < o.quantity)) = true) :=
  ⟨by decide, by decide,
   executeMatching_output_shape scenPartialOrders [] [10, 11] 100
     (by decide) (by decide)⟩

/-- Witness for C6 on spec scenario 2 (Carol `buy Yes 10 @ 0.60`, Dave
`buy No 10 @ 0.55`; total 1.15 ≥ 1). -/
theorem syntheticPhase_spec_witness :
    (initSt scen2Orders).balChanges = [] ∧
    (initSt scen2Orders).execs = [] ∧
    (initSt scen2Orders).posUpds = [] ∧
    ((synSelect (initSt scen2Orders).buyBook [10, 11]).1.all
      (fun x => decide (0 < (initSt scen2Orders).rem x.2.idx) &&
        decide (0 < x.2.ord.price)) = true) ∧
    ((synSelect (initSt scen2Orders).buyBook [10, 11]).1.map
      (fun x => x.2.ord.userId)).Nodup ∧
    (1 ≤ (synSelect (initSt scen2Orders).buyBook [10, 11]).2) ∧
    (minRemOpt (initSt scen2Orders).rem
        (synSelect (initSt scen2Orders).buyBook [10, 11]).1 none =
      some (synMinQty (initSt scen2Orders) [10, 11]) ∧
     (syntheticPhase 100 [10, 11] (initSt scen2Orders)).2 = true) :=
  ⟨rfl, rfl, rfl, by decide, by decide, by decide,
   let h := (syntheticPhase_spec 100 [10, 11] (initSt scen2Orders)
     rfl rfl rfl (by decide) (by decide)).2 (by decide)
   ⟨h.1, h.2.1⟩⟩

end ConcreteWitnesses

end HypeHedge
